import Mathlib

/-!
Verification of the ledger/agent core of the AiAssistant repository.

Python strings are modelled as `List Char`; each Python string primitive used
by the source (`split`, `splitlines`, `strip`, `lower`, `startswith`, `in`,
`replace(pat, "")`, f-string row rendering) is given a faithful executable
counterpart, and the agent operations (`_parse_markdown_table`,
`log_transaction`, `delete_specific_transaction`, `undo_last_transaction`,
`_ensure_file_exists`, `_ensure_tracker_exists`, `log_habit`, and the
orchestrator tool-dispatch step) are translated on top of them.
-/

set_option maxRecDepth 20000

namespace AiAssistant

/-- A Python string, modelled as its list of characters. -/
abbrev Str := List Char

/-- Characters of a Lean string literal, used to embed Python literals. -/
def lit (s : String) : Str := s.toList

/-- The apostrophe character (U+0027), spelled by code point. -/
def aposC : Char := Char.ofNat 39

/-- Python `s.startswith(pat)`. -/
def pyStartsWith : Str → Str → Bool
  | [], _ => true
  | _ :: _, [] => false
  | p :: ps, c :: cs => p == c && pyStartsWith ps cs

/-- Python `pat in s` (contiguous-substring test). -/
def pyContains (pat : Str) : Str → Bool
  | [] => pat.isEmpty
  | c :: t => pyStartsWith pat (c :: t) || pyContains pat t

/-- Python `s.split(sep)` for a one-character separator: keeps empty pieces,
and returns `[""]` on the empty string. -/
def pySplit (sep : Char) : Str → List Str
  | [] => [[]]
  | c :: t =>
    if c = sep then [] :: pySplit sep t
    else
      match pySplit sep t with
      | [] => [[c]]
      | r :: rs => (c :: r) :: rs

/-- Python `sep.join(pieces)` for a one-character separator. -/
def pyJoin (sep : Char) : List Str → Str
  | [] => []
  | [x] => x
  | x :: y :: ys => x ++ sep :: pyJoin sep (y :: ys)

/-- The whitespace characters Python's `strip()` removes on the data in play. -/
def isWS (c : Char) : Bool := c == ' ' || c == '\t' || c == '\n' || c == '\r'

/-- Remove trailing whitespace. -/
def dropTrail (l : Str) : Str := (l.reverse.dropWhile isWS).reverse

/-- Python `s.strip()`. -/
def pyStrip (l : Str) : Str := (dropTrail l).dropWhile isWS

/-- Python `s.splitlines()` for `\n`-separated text: a trailing newline is a
terminator, not the start of an extra empty line. -/
def splitlines (s : Str) : List Str :=
  if s = [] then []
  else if s.getLast? = some '\n' then pySplit '\n' s.dropLast
  else pySplit '\n' s

/-- Python `s.lower()` (ASCII range, which covers the repository's data). -/
def pyLower (l : Str) : Str := l.map Char.toLower

/-- Python `s.replace(pat, "")` (left-to-right, non-overlapping), by fuel;
the fuel bounds the number of characters consumed, so structural recursion
on it keeps the function kernel-reducible. -/
def removeAllGo (pat : Str) : Str → Nat → Str
  | l, 0 => l
  | [], _ => []
  | c :: t, fuel + 1 =>
    if pat ≠ [] && pyStartsWith pat (c :: t) then
      removeAllGo pat (List.drop (pat.length - 1) t) fuel
    else c :: removeAllGo pat t fuel

/-- Python `s.replace(pat, "")`. -/
def removeAll (pat l : Str) : Str := removeAllGo pat l l.length

/-- The first match of the regex `\d+(\.\d+)?` anchored at the head. -/
def numTail (l : Str) : Str :=
  let ds := l.takeWhile Char.isDigit
  match l.dropWhile Char.isDigit with
  | '.' :: r => if (r.headD 'x').isDigit then ds ++ '.' :: r.takeWhile Char.isDigit else ds
  | _ => ds

/-- `re.search(r"\d+(\.\d+)?", s)`: the first numeric token of `s`, if any. -/
def firstNumber : Str → Option Str
  | [] => none
  | c :: t => if c.isDigit then some (numTail (c :: t)) else firstNumber t

/-- Decimal digit rendering, structurally recursive on a fuel argument. -/
def natToStrGo : Nat → Nat → Str
  | 0, _ => []
  | fuel + 1, n =>
    if n < 10 then [Char.ofNat (48 + n)]
    else natToStrGo fuel (n / 10) ++ [Char.ofNat (48 + n % 10)]

/-- Decimal rendering of a natural number (Python `str(n)` for `n ≥ 0`). -/
def natToStr (n : Nat) : Str := natToStrGo (n + 1) n

/-- `" | ".join`-style joining with a string separator. -/
def joinSep (sep : Str) : List Str → Str
  | [] => []
  | [x] => x
  | x :: y :: ys => x ++ sep ++ joinSep sep (y :: ys)

/-- The f-string markdown row `"| a | b | ... |"` both agents emit. -/
def renderCells (fs : List Str) : Str := lit "| " ++ joinSep (lit " | ") fs ++ lit " |"

/-- The Python list comprehension
`[p.strip() for p in line.split("|") if p.strip()]`. -/
def pyParts (l : Str) : List Str :=
  ((pySplit '|' l).map pyStrip).filter (fun p => decide (p ≠ []))

/-- First index satisfying a predicate (the row-update loop's search). -/
def findFirstIdx (p : Str → Bool) : List Str → Option Nat
  | [] => none
  | l :: rest => if p l then some 0 else (findFirstIdx p rest).map (· + 1)

/-- Replace the element at an index, keeping the list otherwise. -/
def setAt : List Str → Nat → Str → List Str
  | [], _, _ => []
  | _ :: t, 0, x => x :: t
  | l :: t, n + 1, x => l :: setAt t n x

/-! ## FinanceAgent (src/agents/finance.py) -/

/-- The header text `_ensure_file_exists` writes into a fresh monthly ledger,
with the creation date and the month name substituted in. -/
def freshFinance (date month : Str) : Str :=
  lit "---\ntype: finance_log\nstatus: active\ncreated: " ++ date ++
    lit "\n---\n\n# Financial Log: " ++ month ++
    lit "\n\n| Date | Type | Category | Description | Amount | Currency |\n| :--- | :--- | :--- | :--- | :--- | :--- |\n"

/-- `_ensure_file_exists`: create the ledger with its header if absent.
The file system is an `Option Str`: `none` means the file does not exist. -/
def ensureFinance (date month : Str) (fs : Option Str) : Option Str :=
  some (fs.getD (freshFinance date month))

/-- Column names of the finance ledger header row. -/
def financeHeaders : List Str :=
  [lit "Date", lit "Type", lit "Category", lit "Description", lit "Amount", lit "Currency"]

/-- One step of `_parse_markdown_table`'s loop: the state is the detected
header list and the rows accumulated so far. -/
def parseStep (st : List Str × List (List (Str × Str))) (raw : Str) :
    List Str × List (List (Str × Str)) :=
  let line := pyStrip raw
  if line = [] ∨ pyStartsWith (lit "|") line = false then st
  else if pyContains (lit "Date") line = true ∧ st.1 = [] then (pyParts line, st.2)
  else if pyContains (lit ":---") line = true then st
  else if st.1 ≠ [] then
    let values := pyParts line
    if values.length = st.1.length then (st.1, st.2 ++ [st.1.zip values]) else st
  else st

/-- `_parse_markdown_table`: a parsed row is the header-to-value association
(the Python dict, in column order). -/
def parseMarkdownTable (content : Str) : List (List (Str × Str)) :=
  ((pySplit '\n' content).foldl parseStep ([], [])).2

/-- The keyword scan `log_transaction` uses to infer a category. -/
def kwAny (dl : Str) (kws : List Str) : Bool := kws.any (fun k => pyContains k dl)

/-- `log_transaction`'s smart inference: a category of "General" is replaced
by the first keyword class matching the lowercased description. -/
def inferCategory (category desc : Str) : Str :=
  if category = lit "General" then
    let dl := pyLower desc
    if kwAny dl [lit "uber", lit "taxi", lit "bus", lit "train", lit "gas"] then lit "Transport"
    else if kwAny dl [lit "food", lit "lunch", lit "dinner", lit "groceries", lit "market", lit "arepa"] then lit "Food"
    else if kwAny dl [lit "netflix", lit "spotify", lit "movie", lit "game"] then lit "Entertainment"
    else if kwAny dl [lit "salary", lit "freelance", lit "client"] then lit "Income"
    else lit "General"
  else category

/-- Inputs of one `log_transaction` call (the timestamp the call renders, and
the five argument strings; the float amount appears via its rendering). -/
structure TxIn where
  dt : Str
  desc : Str
  amount : Str
  ty : Str
  cat : Str
  cur : Str

/-- The cells of the row `log_transaction` appends, in the table's column
order (with the category inference applied). -/
def txCells (tx : TxIn) : List Str :=
  [tx.dt, tx.ty, inferCategory tx.cat tx.desc, tx.desc, tx.amount, tx.cur]

/-- The markdown row `log_transaction` appends for one call. -/
def txRow (tx : TxIn) : Str := renderCells (txCells tx)

/-- The header row of the finance ledger. -/
def financeHeadersRow : Str := lit "| Date | Type | Category | Description | Amount | Currency |"

/-- The separator row of the finance ledger. -/
def financeSepRow : Str := lit "| :--- | :--- | :--- | :--- | :--- | :--- |"

/-- The lines of a fresh ledger, before any data row. -/
def freshLines (date month : Str) : List Str :=
  [lit "---", lit "type: finance_log", lit "status: active", lit "created: " ++ date,
    lit "---", [], lit "# Financial Log: " ++ month, [], financeHeadersRow, financeSepRow]

/-- `log_transaction`: ensure the ledger exists, then append one row. -/
def logTransaction (date month : Str) (tx : TxIn) (fs : Option Str) : Option Str :=
  some ((fs.getD (freshFinance date month)) ++ txRow tx ++ ['\n'])

/-- A sequence of `log_transaction` calls against an initially absent ledger. -/
def runTxs (date month : Str) (txs : List TxIn) : Option Str :=
  txs.foldl (fun fs tx => logTransaction date month tx fs) none

/-- The skip test of `delete_specific_transaction`'s scan (its
`# Skip headers/metadata` branch). -/
def deleteSkip (l : Str) : Bool :=
  pyStartsWith (lit "| Date") l || pyStartsWith (lit "| :---") l || pyStrip l == [] ||
    pyStartsWith (lit "#") l || pyStartsWith (lit "---") l || pyStartsWith (lit "type:") l

/-- `delete_specific_transaction`'s scan: walk the lines top to bottom and
retain the index of the latest match. -/
def deleteScan (nums : Option Str) (clean : Str) : Nat → List Str → Option Nat → Option Nat
  | _, [], acc => acc
  | i, l :: rest, acc =>
    if deleteSkip l then deleteScan nums clean (i + 1) rest acc
    else
      let ll := pyLower l
      let acc' :=
        match nums with
        | some n => if pyContains n ll then some i
                    else if pyContains clean ll then some i else acc
        | none => if pyContains clean ll then some i else acc
      deleteScan nums clean (i + 1) rest acc'

/-- Criteria normalisation in `delete_specific_transaction`:
`criteria.lower().replace("$","").replace(",","").replace("usd","").replace("cop","").strip()`. -/
def cleanCriteria (criteria : Str) : Str :=
  pyStrip (removeAll (lit "cop") (removeAll (lit "usd")
    (removeAll (lit ",") (removeAll (lit "$") (pyLower criteria)))))

/-- `delete_specific_transaction`: returns the user-facing message and the
resulting file system. -/
def deleteSpecific (criteria : Str) (fs : Option Str) : Str × Option Str :=
  match fs with
  | none => (lit "No transaction file found for this month.", none)
  | some content =>
    let lines := splitlines content
    let clean := cleanCriteria criteria
    let nums := firstNumber clean
    match deleteScan nums clean 0 lines none with
    | some i =>
      (lit "Successfully deleted transaction: " ++ lines.getD i [],
        some (pyJoin '\n' (lines.eraseIdx i) ++ ['\n']))
    | none =>
      (lit "No matching transaction found for " ++ [aposC] ++ criteria ++ [aposC] ++ lit ".",
        some content)

/-- The data-row test of `undo_last_transaction`'s backwards scan. -/
def undoCond (l : Str) : Bool :=
  !(pyStrip l == []) && pyStartsWith (lit "|") l &&
    !pyStartsWith (lit "| Date") l && !pyStartsWith (lit "| :---") l

/-- `undo_last_transaction`: remove the last valid data row, if any. -/
def undoLast (fs : Option Str) : Str × Option Str :=
  match fs with
  | none => (lit "No transaction file found.", none)
  | some content =>
    let lines := splitlines content
    match lines.reverse.findIdx? undoCond with
    | some j =>
      let i := lines.length - 1 - j
      (lit "Undid last transaction: " ++ lines.getD i [],
        some (pyJoin '\n' (lines.eraseIdx i) ++ ['\n']))
    | none => (lit "No transactions found to undo.", some content)

/-! ## GoalsAgent (src/agents/goals.py) -/

/-- The fresh habit tracker `_ensure_tracker_exists` writes. -/
def freshTracker : Str :=
  lit "# Habit Tracker 🏃\n\n| Date | Habit | Status | Coach Comment |\n| :--- | :--- | :--- | :--- |\n"

/-- `_ensure_tracker_exists`: create the tracker if absent. -/
def ensureTracker (fs : Option Str) : Option Str := some (fs.getD freshTracker)

/-- Statuses `log_habit` treats as a success when deciding to count a streak. -/
def successStatuses : List Str :=
  [lit "done", lit "completed", lit "yes", lit "new project started"]

/-- Statuses that draw the warning comment. -/
def missedStatuses : List Str := [lit "missed", lit "no", lit "fail"]

/-- The reverse scan of `log_habit`'s streak analysis, over the reversed
lines: count success lines for the habit, stop at the first habit line that
is not a success. -/
def streakScan (habit : Str) : List Str → Nat
  | [] => 0
  | line :: rest =>
    if pyContains habit line &&
        (pyContains (lit "Done") line || pyContains (lit "Yes") line ||
          pyContains (lit "New Project") line) then
      streakScan habit rest + 1
    else if pyContains habit line then 0
    else streakScan habit rest

/-- The streak `log_habit` computes from the tracker content before writing
the new row (zero unless the new status is in the success class). -/
def computeStreak (habit status content : Str) : Nat :=
  if successStatuses.contains (pyLower status) then
    streakScan habit (pySplit '\n' content).reverse
  else 0

/-- The coach comment attached to the new row. -/
def commentOf (streak : Nat) (status : Str) : Str :=
  if 2 < streak then lit "🔥 " ++ natToStr streak ++ lit " day streak!"
  else if missedStatuses.contains (pyLower status) then
    lit "⚠️ Don" ++ [aposC] ++ lit "t let this slide."
  else lit "Keep pushing."

/-- The match test of `log_habit`'s update loop: skip non-`|` lines, the
separator, and any line containing "Date"; then compare the first two parsed
cells with the current date and the habit. -/
def trackerRowMatch (today habit : Str) (l : Str) : Bool :=
  if pyStartsWith (lit "|") l = false ∨ pyStartsWith (lit "| :---") l ∨
      pyContains (lit "Date") l then false
  else
    let parts := pyParts l
    decide (4 ≤ parts.length) && (parts.getD 0 [] == today) && (parts.getD 1 [] == habit)

/-- The row `log_habit` writes for the call. -/
def newRowOf (today habit status content : Str) : Str :=
  renderCells [today, habit, status, commentOf (computeStreak habit status content) status]

/-- The updated line list of `log_habit`: replace the first row matching
(date, habit) in place, or append the new row (after a blank line when the
file's last line is not blank). -/
def logHabitLines (today habit status content : Str) : List Str :=
  match findFirstIdx (trackerRowMatch today habit) (splitlines content) with
  | some i => setAt (splitlines content) i (newRowOf today habit status content)
  | none =>
    (if splitlines content ≠ [] ∧ pyStrip ((splitlines content).getLast?.getD []) ≠ [] then
      splitlines content ++ [[]]
    else splitlines content) ++ [newRowOf today habit status content]

/-- `log_habit`'s effect on the tracker content: compute the streak, build
the row, update the line list, then write `"\n".join(lines).strip() + "\n"`. -/
def logHabitContent (today habit status content : Str) : Str :=
  pyStrip (pyJoin '\n' (logHabitLines today habit status content)) ++ ['\n']

/-- One `log_habit` call: date, habit, status. -/
abbrev HabitCall := Str × Str × Str

/-- A sequence of `log_habit` calls against a freshly created tracker. -/
def runHabits (calls : List HabitCall) : Str :=
  calls.foldl (fun c args => logHabitContent args.1 args.2.1 args.2.2 c) freshTracker

/-! ## Orchestrator (src/agents/orchestrator.py, ReAct tool-execution step) -/

/-- The outcome of invoking a registered tool: a returned string, or a raised
exception carried as its message. -/
def execToolStep {α : Type} (registry : List (String × (α → Except String String)))
    (name : String) (args : α) : String :=
  match registry.lookup name with
  | some f =>
    match f args with
    | Except.ok s => s
    | Except.error e => "Error executing tool: " ++ e
  | none => "Error: Tool " ++ name ++ " not found."

/-! ## Well-formedness predicates and invariants -/

/-- A table cell that survives the markdown round trip: nonempty, already
stripped, and free of the delimiter, newlines and the separator marker. -/
@[reducible] def wfCell (f : Str) : Prop :=
  f ≠ [] ∧ pyStrip f = f ∧ '|' ∉ f ∧ '\n' ∉ f ∧ pyContains (lit ":---") f = false

/-- A well-formed `log_transaction` input: every rendered cell is well formed. -/
@[reducible] def wfTx (tx : TxIn) : Prop :=
  wfCell tx.dt ∧ wfCell tx.desc ∧ wfCell tx.amount ∧ wfCell tx.ty ∧ wfCell tx.cat ∧ wfCell tx.cur

/-- A habit/status field safe for `log_habit`'s line-based matching: a
well-formed cell that moreover does not contain the header marker "Date". -/
@[reducible] def wfField (f : Str) : Prop :=
  f ≠ [] ∧ pyStrip f = f ∧ '|' ∉ f ∧ '\n' ∉ f ∧ pyContains (lit "Date") f = false

/-- A date string of the shape `strftime` produces: nonempty, digits and
hyphens only. -/
@[reducible] def wfDate (d : Str) : Prop := d ≠ [] ∧ ∀ c ∈ d, c.isDigit ∨ c = '-'

/-- The facts needed of a generated coach comment. -/
@[reducible] def wfComment (c : Str) : Prop :=
  c ≠ [] ∧ pyStrip c = c ∧ '|' ∉ c ∧ '\n' ∉ c ∧ pyContains (lit "Date") c = false

/-- A well-formed `log_habit` call. -/
@[reducible] def wfCall (c : HabitCall) : Prop := wfDate c.1 ∧ wfField c.2.1 ∧ wfField c.2.2

/-- A tracker line produced by `log_habit` for some well-formed call. -/
def GoodRow (l : Str) : Prop :=
  ∃ t h s c, wfDate t ∧ wfField h ∧ wfField s ∧ wfComment c ∧ l = renderCells [t, h, s, c]

/-- The four fixed lines at the top of the tracker file. -/
def trackerPre : List Str :=
  [lit "# Habit Tracker 🏃", [], lit "| Date | Habit | Status | Coach Comment |",
    lit "| :--- | :--- | :--- | :--- |"]

/-- Invariant of the tracker's line list: the fixed prefix followed by a body
of blank lines and good rows, ending in a row, with at most one row per
(date, habit) key. -/
def TrackerInv (L : List Str) : Prop :=
  ∃ body, L = trackerPre ++ body ∧
    (∀ l ∈ body, l = [] ∨ GoodRow l) ∧
    (∀ r, body.getLast? = some r → r ≠ []) ∧
    (∀ d h, L.countP (trackerRowMatch d h) ≤ 1)

/-- Invariant of the tracker's file content. -/
def TCInv (content : Str) : Prop :=
  ∃ L, content = pyJoin '\n' L ++ ['\n'] ∧ TrackerInv L

/-- A data row keyed by its first two cells: starts with the delimiter, is
not the separator, and its first two parsed cells are the given key. -/
def dataRowKeyIs (d h : Str) (l : Str) : Bool :=
  pyStartsWith (lit "|") l && !pyStartsWith (lit "| :---") l &&
    ((pyParts l).take 2 == [d, h])

/-! ## Concrete fixtures for the claims -/

/-- Creation date used by the concrete ledgers. -/
def dC : Str := lit "2025-11-09"

/-- Month name used by the concrete ledgers. -/
def mC : Str := lit "November 2025"

/-- First sample transaction (amount 10). -/
def tx1 : TxIn := ⟨lit "2025-11-01 09:15", lit "Lunch", lit "10", lit "Expense", lit "General", lit "USD"⟩

/-- Second sample transaction (amount 20). -/
def tx2 : TxIn := ⟨lit "2025-11-02 08:30", lit "Taxi", lit "20", lit "Expense", lit "General", lit "USD"⟩

/-- Third sample transaction (amount 10 again). -/
def tx3 : TxIn := ⟨lit "2025-11-03 07:45", lit "Lunch", lit "10", lit "Expense", lit "General", lit "USD"⟩

/-- Ledger holding amounts 10, 20, 10 in insertion order. -/
def ledgerTen : Str := (runTxs dC mC [tx1, tx2, tx3]).getD []

/-- The fresh ledger after the metadata line `status: active` is removed. -/
def freshNoStatus : Str :=
  lit "---\ntype: finance_log\ncreated: 2025-11-09\n---\n\n# Financial Log: November 2025\n\n| Date | Type | Category | Description | Amount | Currency |\n| :--- | :--- | :--- | :--- | :--- | :--- |\n"

/-- Transaction whose date contains no "10". -/
def tx9a : TxIn := ⟨lit "2025-09-30 08:00", lit "Snack", lit "10", lit "Expense", lit "General", lit "USD"⟩

/-- Transaction whose date contains "10" but whose amount is 25. -/
def tx9b : TxIn := ⟨lit "2025-10-01 09:00", lit "Book", lit "25", lit "Expense", lit "General", lit "USD"⟩

/-- Ledger where the numeric token "10" occurs in a later row only inside
the date column. -/
def ledgerNine : Str := (runTxs dC mC [tx9a, tx9b]).getD []

/-- Tracker after two consecutive "Done" logs for habit "Run". -/
def trackerTwoDone : Str :=
  runHabits [(lit "2025-11-01", lit "Run", lit "Done"), (lit "2025-11-02", lit "Run", lit "Done")]

/-- Tracker after logging done, done, missed for habit "Run". -/
def trackerDDM : Str :=
  runHabits [(lit "2025-11-01", lit "Run", lit "done"), (lit "2025-11-02", lit "Run", lit "done"),
    (lit "2025-11-03", lit "Run", lit "missed")]

/-- Tracker after two "Run" successes followed by a "Run 5k" miss. -/
def trackerRunThenFiveK : Str :=
  runHabits [(lit "2025-11-01", lit "Run", lit "Done"), (lit "2025-11-02", lit "Run", lit "Done"),
    (lit "2025-11-03", lit "Run 5k", lit "Missed")]

/-- Tracker holding three "Run 5k" successes and no "Run" row. -/
def trackerFiveK : Str :=
  runHabits [(lit "2025-11-01", lit "Run 5k", lit "Done"), (lit "2025-11-02", lit "Run 5k", lit "Done"),
    (lit "2025-11-03", lit "Run 5k", lit "Done")]

/-- Tracker after logging habit "Date Night" twice on the same date. -/
def trackerDateNight : Str :=
  runHabits [(lit "2025-11-01", lit "Date Night", lit "Done"),
    (lit "2025-11-01", lit "Date Night", lit "Done")]

/-- A two-tool registry used to witness the dispatch contract. -/
def demoRegistry : List (String × (Unit → Except String String)) :=
  [("echo", fun _ => Except.ok "hello"), ("boom", fun _ => Except.error "kaboom")]

/-- A concrete well-formed call sequence (same-day update included). -/
def demoCalls : List HabitCall :=
  [(lit "2025-11-01", lit "Run", lit "Done"), (lit "2025-11-01", lit "Run", lit "Missed")]

/-! ## Supporting lemmas: split, join, strip -/

theorem pySplit_ne_nil (sep : Char) (l : Str) : pySplit sep l ≠ [] := by
  induction l with
  | nil => simp [pySplit]
  | cons c t ih =>
    simp only [pySplit]
    split
    · simp
    · cases h : pySplit sep t with
      | nil => exact absurd h ih
      | cons r rs => simp

theorem pySplit_append (sep : Char) (a b : Str) :
    pySplit sep (a ++ sep :: b) = pySplit sep a ++ pySplit sep b := by
  induction a with
  | nil => simp [pySplit]
  | cons c t ih =>
    by_cases hc : c = sep
    · subst hc
      simp [pySplit, ih]
    · simp only [List.cons_append, pySplit, if_neg hc, List.append_eq]
      rw [ih]
      cases h : pySplit sep t with
      | nil => exact absurd h (pySplit_ne_nil sep t)
      | cons r rs => simp [h]

theorem pySplit_no_sep {sep : Char} {l : Str} (h : sep ∉ l) : pySplit sep l = [l] := by
  induction l with
  | nil => simp [pySplit]
  | cons c t ih =>
    have hc : ¬ c = sep := fun e => h (e ▸ List.mem_cons_self c t)
    have ht : sep ∉ t := fun m => h (List.mem_cons_of_mem c m)
    simp [pySplit, hc, ih ht]

theorem pySplit_pyJoin {sep : Char} :
    ∀ {L : List Str}, (∀ x ∈ L, sep ∉ x) → L ≠ [] → pySplit sep (pyJoin sep L) = L := by
  intro L
  induction L with
  | nil => intro _ h; exact absurd rfl h
  | cons x L' ih =>
    intro h _
    cases L' with
    | nil => exact pySplit_no_sep (h x (List.mem_cons_self x []))
    | cons y ys =>
      have hx : sep ∉ x := h x (List.mem_cons_self x _)
      have hrest : ∀ z ∈ y :: ys, sep ∉ z := fun z hz => h z (List.mem_cons_of_mem x hz)
      calc pySplit sep (pyJoin sep (x :: y :: ys))
          = pySplit sep (x ++ sep :: pyJoin sep (y :: ys)) := rfl
        _ = pySplit sep x ++ pySplit sep (pyJoin sep (y :: ys)) := pySplit_append sep _ _
        _ = [x] ++ (y :: ys) := by rw [pySplit_no_sep hx, ih hrest (by simp)]
        _ = x :: y :: ys := rfl

theorem splitlines_concat (l : Str) : splitlines (l ++ ['\n']) = pySplit '\n' l := by
  have hne : l ++ ['\n'] ≠ [] := by simp
  simp [splitlines, hne, List.getLast?_concat, List.dropLast_concat]

theorem splitlines_join {L : List Str} (h : ∀ x ∈ L, '\n' ∉ x) (hne : L ≠ []) :
    splitlines (pyJoin '\n' L ++ ['\n']) = L := by
  rw [splitlines_concat, pySplit_pyJoin h hne]

theorem dropTrail_concat_ws {c : Char} (hc : isWS c = true) (l : Str) :
    dropTrail (l ++ [c]) = dropTrail l := by
  simp [dropTrail, List.dropWhile_cons, hc]

theorem dropTrail_eq_nil_iff {l : Str} : dropTrail l = [] ↔ ∀ c ∈ l, isWS c = true := by
  constructor
  · intro h c hc
    have : l.reverse.dropWhile isWS = [] := by
      have := congrArg List.reverse h
      simpa [dropTrail] using this
    exact List.dropWhile_eq_nil_iff.mp this c (List.mem_reverse.mpr hc)
  · intro h
    have : l.reverse.dropWhile isWS = [] :=
      List.dropWhile_eq_nil_iff.mpr fun c hc => h c (List.mem_reverse.mp hc)
    simp [dropTrail, this]

theorem dropTrail_cons_shape {c : Char} (l : Str) :
    dropTrail (c :: l) = [] ∨ ∃ t, dropTrail (c :: l) = c :: t := by
  have hrev : (c :: l).reverse = l.reverse ++ [c] := by simp
  simp only [dropTrail, hrev, List.dropWhile_append]
  by_cases hd : (l.reverse.dropWhile isWS).isEmpty = true
  · simp only [hd, if_true]
    by_cases h : isWS c = true
    · left
      simp [List.dropWhile_cons, h]
    · right
      exact ⟨[], by simp [List.dropWhile_cons, h]⟩
  · right
    simp only [hd, if_false]
    cases he : l.reverse.dropWhile isWS with
    | nil => simp [he] at hd
    | cons r rs => exact ⟨rs.reverse ++ [r], by simp⟩

theorem pyStrip_cons_nonws {c : Char} (hc : isWS c = false) (l : Str) :
    ∃ t, pyStrip (c :: l) = c :: t := by
  rcases @dropTrail_cons_shape c l with h | ⟨t, h⟩
  · exact absurd (dropTrail_eq_nil_iff.mp h c (List.mem_cons_self c l)) (by simp [hc])
  · exact ⟨t, by simp [pyStrip, h, List.dropWhile_cons, hc]⟩

theorem dropTrail_eq_self {l : Str} {d : Char} (hd : isWS d = false) :
    dropTrail (l ++ [d]) = l ++ [d] := by
  have : (l ++ [d]).reverse = d :: l.reverse := by simp
  simp [dropTrail, this, List.dropWhile_cons, hd]

theorem pyStrip_eq_self_shape {c d : Char} (hc : isWS c = false) (hd : isWS d = false)
    (m : Str) : pyStrip ((c :: m) ++ [d]) = (c :: m) ++ [d] := by
  have h1 : dropTrail ((c :: m) ++ [d]) = (c :: m) ++ [d] := dropTrail_eq_self hd
  unfold pyStrip
  rw [h1, List.cons_append, List.dropWhile_cons]
  simp [hc]

theorem pyStrip_singleton {c : Char} (hc : isWS c = false) : pyStrip [c] = [c] := by
  have h1 : dropTrail [c] = [c] := by
    have hds := @dropTrail_eq_self [] c hc
    simpa using hds
  simp [pyStrip, h1, List.dropWhile_cons, hc]

theorem dropTrail_cons_of_ne {c : Char} {l : Str} (h : dropTrail l ≠ []) :
    dropTrail (c :: l) = c :: dropTrail l := by
  have hrev : (c :: l).reverse = l.reverse ++ [c] := by simp
  have hd : (l.reverse.dropWhile isWS).isEmpty = false := by
    rcases he : l.reverse.dropWhile isWS with _ | ⟨r, rs⟩
    · exact absurd (by simp [dropTrail, he]) h
    · simp
  rw [dropTrail, hrev, List.dropWhile_append, hd]
  simp [dropTrail]

theorem pyStrip_pad (x : Str) : pyStrip (' ' :: x ++ [' ']) = pyStrip x := by
  have h1 : dropTrail ((' ' :: x) ++ [' ']) = dropTrail (' ' :: x) :=
    dropTrail_concat_ws (by decide) _
  by_cases h : dropTrail x = []
  · have hx : ∀ c ∈ x, isWS c = true := dropTrail_eq_nil_iff.mp h
    have h2 : dropTrail (' ' :: x) = [] :=
      dropTrail_eq_nil_iff.mpr (fun c hc => by
        rcases List.mem_cons.mp hc with rfl | hc'
        · decide
        · exact hx c hc')
    have h3 : pyStrip (' ' :: x ++ [' ']) = [] := by
      have := h1
      simp only [List.cons_append] at this ⊢
      simp [pyStrip, this, h2]
    rw [h3]
    simp [pyStrip, h]
  · have h2 : dropTrail (' ' :: x) = ' ' :: dropTrail x := dropTrail_cons_of_ne h
    have : pyStrip (' ' :: x ++ [' ']) = List.dropWhile isWS (' ' :: dropTrail x) := by
      simp only [List.cons_append] at h1 ⊢
      simp [pyStrip, h1, h2]
    rw [this]
    simp [pyStrip, List.dropWhile_cons, show isWS ' ' = true from by decide]

/-! ## Supporting lemmas: substring containment -/

theorem pyStartsWith_append_cut {pat : Str} {c : Char} (hc : c ∉ pat) :
    ∀ (a b : Str), pyStartsWith pat (a ++ c :: b) = pyStartsWith pat a := by
  suffices h : ∀ (a : Str) (pat : Str), c ∉ pat → ∀ b,
      pyStartsWith pat (a ++ c :: b) = pyStartsWith pat a by
    intro a b
    exact h a pat hc b
  intro a
  induction a with
  | nil =>
    intro pat hpc b
    cases pat with
    | nil => rfl
    | cons p ps =>
      have hp : (p == c) = false := by
        have : p ≠ c := fun e => hpc (e ▸ List.mem_cons_self p ps)
        simp [this]
      simp [pyStartsWith, hp]
  | cons x a' ih =>
    intro pat hpc b
    cases pat with
    | nil => rfl
    | cons p ps =>
      have hps : c ∉ ps := fun m => hpc (List.mem_cons_of_mem p m)
      simp [pyStartsWith, ih ps hps b]

theorem pyContains_ne_nil_nil {pat : Str} (h : pat ≠ []) : pyContains pat [] = false := by
  cases pat with
  | nil => exact absurd rfl h
  | cons p ps => rfl

theorem pyContains_cut {pat : Str} {c : Char} (hpat : pat ≠ []) (hc : c ∉ pat) :
    ∀ (a b : Str), pyContains pat (a ++ c :: b) = (pyContains pat a || pyContains pat b) := by
  intro a
  induction a with
  | nil =>
    intro b
    cases pat with
    | nil => exact absurd rfl hpat
    | cons p ps =>
      have hp : (p == c) = false := by
        have : p ≠ c := fun e => hc (e ▸ List.mem_cons_self p ps)
        simp [this]
      simp [pyContains, pyStartsWith, hp]
  | cons x a' ih =>
    intro b
    have hcut := pyStartsWith_append_cut hc (x :: a') b
    simp only [List.cons_append] at hcut ⊢
    simp only [pyContains, hcut, ih b, Bool.or_assoc]

theorem pyContains_cons_cut {pat : Str} {c : Char} (hpat : pat ≠ []) (hc : c ∉ pat) (b : Str) :
    pyContains pat (c :: b) = pyContains pat b := by
  have := pyContains_cut hpat hc [] b
  simpa [pyContains_ne_nil_nil hpat] using this

theorem mem_of_pyStartsWith {pat : Str} :
    ∀ {l : Str}, pyStartsWith pat l = true → ∀ x ∈ pat, x ∈ l := by
  induction pat with
  | nil => intro l _ x hx; exact absurd hx (List.not_mem_nil x)
  | cons p ps ih =>
    intro l h x hx
    cases l with
    | nil => exact absurd h (by simp [pyStartsWith])
    | cons d ds =>
      simp only [pyStartsWith, Bool.and_eq_true, beq_iff_eq] at h
      rcases List.mem_cons.mp hx with rfl | hx'
      · exact h.1 ▸ List.mem_cons_self d ds
      · exact List.mem_cons_of_mem d (ih h.2 x hx')

theorem mem_of_pyContains {pat : Str} :
    ∀ {l : Str}, pyContains pat l = true → ∀ x ∈ pat, x ∈ l := by
  intro l
  induction l with
  | nil =>
    intro h x hx
    cases pat with
    | nil => exact absurd hx (List.not_mem_nil x)
    | cons p ps => exact absurd h (by simp [pyContains])
  | cons d ds ih =>
    intro h x hx
    rcases Bool.or_eq_true_iff.mp (by simpa [pyContains] using h) with hs | ht
    · exact mem_of_pyStartsWith hs x hx
    · exact List.mem_cons_of_mem d (ih ht x hx)

theorem pyContains_false_of_not_mem {pat l : Str} {p : Char} (hp : p ∈ pat) (hl : p ∉ l) :
    pyContains pat l = false := by
  cases hq : pyContains pat l with
  | false => rfl
  | true => exact absurd (mem_of_pyContains hq p hp) hl

/-! ## Supporting lemmas: rendered rows -/

theorem renderCells_cons_cons (f g : Str) (gs : List Str) :
    renderCells (f :: g :: gs) = '|' :: ' ' :: (f ++ ' ' :: renderCells (g :: gs)) := by
  simp [renderCells, joinSep, lit, List.append_assoc]

theorem pyContains_renderCells {pat : Str} (hpat : pat ≠ []) (hsp : ' ' ∉ pat)
    (hbar : '|' ∉ pat) :
    ∀ fs : List Str, pyContains pat (renderCells fs) = fs.any (fun f => pyContains pat f) := by
  intro fs
  induction fs with
  | nil =>
    rcases pat with _ | ⟨p, ps⟩
    · exact absurd rfl hpat
    · have hp : p ∉ renderCells [] := by
        intro hm
        have hm' : p ∈ (['|', ' ', ' ', '|'] : List Char) := by
          simpa [renderCells, joinSep, lit] using hm
        simp only [List.mem_cons, List.not_mem_nil, or_false] at hm'
        rcases hm' with rfl | rfl | rfl | rfl
        · exact hbar (List.mem_cons_self _ _)
        · exact hsp (List.mem_cons_self _ _)
        · exact hsp (List.mem_cons_self _ _)
        · exact hbar (List.mem_cons_self _ _)
      simp [pyContains_false_of_not_mem (List.mem_cons_self p ps) hp]
  | cons f rest ih =>
    cases rest with
    | nil =>
      have h1 : pyContains pat (renderCells [f]) = pyContains pat (f ++ ' ' :: ['|']) := by
        have e : renderCells [f] = '|' :: ' ' :: (f ++ ' ' :: ['|']) := by
          simp [renderCells, joinSep, lit, List.append_assoc]
        rw [e, pyContains_cons_cut hpat hbar, pyContains_cons_cut hpat hsp]
      have h2 : pyContains pat ['|'] = false :=
        @pyContains_false_of_not_mem pat ['|'] (pat.headD ' ')
          (by cases pat with
            | nil => exact absurd rfl hpat
            | cons p ps => exact List.mem_cons_self p ps)
          (by intro hm
              simp at hm
              cases pat with
              | nil => exact absurd rfl hpat
              | cons p ps =>
                simp at hm
                exact hbar (hm ▸ List.mem_cons_self p ps))
      rw [h1, pyContains_cut hpat hsp f ['|'], h2]
      simp
    | cons g gs =>
      rw [renderCells_cons_cons, pyContains_cons_cut hpat hbar, pyContains_cons_cut hpat hsp,
        pyContains_cut hpat hsp f (renderCells (g :: gs)), ih]
      simp

theorem pySplit_renderCells :
    ∀ fs : List Str, fs ≠ [] → (∀ f ∈ fs, '|' ∉ f) →
      pySplit '|' (renderCells fs) =
        [[]] ++ fs.map (fun f => ' ' :: f ++ [' ']) ++ [[]] := by
  intro fs
  induction fs with
  | nil => intro h _; exact absurd rfl h
  | cons f rest ih =>
    intro _ hbar
    cases rest with
    | nil =>
      have hseg : ('|' : Char) ∉ ' ' :: f ++ [' '] := by
        intro hm
        rcases List.mem_cons.mp hm with h | h
        · exact absurd h.symm (by decide)
        · rcases List.mem_append.mp h with h' | h'
          · exact hbar f (List.mem_cons_self f []) h'
          · simp at h'
      have e : renderCells [f] = [] ++ '|' :: ((' ' :: f ++ [' ']) ++ '|' :: []) := by
        simp [renderCells, joinSep, lit, List.append_assoc]
      rw [e, pySplit_append, pySplit_append, pySplit_no_sep hseg]
      simp [pySplit]
    | cons g gs =>
      have hbar' : ∀ x ∈ g :: gs, '|' ∉ x := fun x hx => hbar x (List.mem_cons_of_mem f hx)
      have ihr := ih (by simp) hbar'
      have hstruct : renderCells (g :: gs) = '|' :: (' ' :: joinSep (lit " | ") (g :: gs) ++ lit " |") := by
        simp [renderCells, lit]
      rw [hstruct] at ihr
      have htail : pySplit '|' (' ' :: joinSep (lit " | ") (g :: gs) ++ lit " |") =
          (g :: gs).map (fun f => ' ' :: f ++ [' ']) ++ [[]] := by
        have : pySplit '|' ('|' :: (' ' :: joinSep (lit " | ") (g :: gs) ++ lit " |")) =
            [] :: pySplit '|' (' ' :: joinSep (lit " | ") (g :: gs) ++ lit " |") := by
          simp [pySplit]
        rw [this] at ihr
        exact (List.cons.injEq _ _ _ _).mp ihr |>.2
      have hseg : ('|' : Char) ∉ ' ' :: f ++ [' '] := by
        intro hm
        rcases List.mem_cons.mp hm with h | h
        · exact absurd h.symm (by decide)
        · rcases List.mem_append.mp h with h' | h'
          · exact hbar f (List.mem_cons_self f _) h'
          · simp at h'
      have e : renderCells (f :: g :: gs) =
          [] ++ '|' :: ((' ' :: f ++ [' ']) ++
            '|' :: (' ' :: joinSep (lit " | ") (g :: gs) ++ lit " |")) := by
        rw [renderCells_cons_cons, hstruct]
        simp [List.append_assoc]
      rw [e, pySplit_append, pySplit_append, pySplit_no_sep hseg, htail]
      simp [pySplit]

theorem pyParts_renderCells (fs : List Str) (hne : fs ≠ [])
    (hf : ∀ f ∈ fs, f ≠ [] ∧ pyStrip f = f ∧ '|' ∉ f) :
    pyParts (renderCells fs) = fs := by
  have hsplit := pySplit_renderCells fs hne (fun f hfm => (hf f hfm).2.2)
  unfold pyParts
  rw [hsplit]
  have hmap : (fs.map (fun f => ' ' :: f ++ [' '])).map pyStrip = fs := by
    rw [List.map_map]
    have : ∀ f ∈ fs, (pyStrip ∘ fun f => ' ' :: f ++ [' ']) f = f := by
      intro f hfm
      have := pyStrip_pad f
      simp only [Function.comp_apply]
      simp only [List.cons_append] at this ⊢
      rw [this, (hf f hfm).2.1]
    calc fs.map (pyStrip ∘ fun f => ' ' :: f ++ [' '])
        = fs.map id := List.map_congr_left this
      _ = fs := List.map_id fs
  have hstripnil : pyStrip ([] : Str) = [] := rfl
  simp only [List.map_append, hmap, List.map_cons, List.map_nil, hstripnil]
  rw [List.filter_append, List.filter_append]
  have hfilter : fs.filter (fun p => decide (p ≠ [])) = fs := by
    apply List.filter_eq_self.mpr
    intro a ha
    simpa using (hf a ha).1
  rw [hfilter]
  simp

theorem newline_not_mem_joinSep {fs : List Str} (h : ∀ f ∈ fs, '\n' ∉ f) :
    ('\n' : Char) ∉ joinSep (lit " | ") fs := by
  induction fs with
  | nil => simp [joinSep]
  | cons f rest ih =>
    cases rest with
    | nil => exact h f (List.mem_cons_self f [])
    | cons g gs =>
      intro hm
      simp only [joinSep, List.mem_append] at hm
      rcases hm with (hm | hm) | hm
      · exact h f (List.mem_cons_self f _) hm
      · simp [lit] at hm
      · exact ih (fun x hx => h x (List.mem_cons_of_mem f hx)) hm

theorem newline_not_mem_renderCells {fs : List Str} (h : ∀ f ∈ fs, '\n' ∉ f) :
    ('\n' : Char) ∉ renderCells fs := by
  intro hm
  simp only [renderCells, List.mem_append] at hm
  rcases hm with (hm | hm) | hm
  · simp [lit] at hm
  · exact newline_not_mem_joinSep h hm
  · simp [lit] at hm

theorem pyStartsWith_pipe_renderCells (fs : List Str) :
    pyStartsWith (lit "|") (renderCells fs) = true := rfl

theorem pyStrip_renderCells (fs : List Str) : pyStrip (renderCells fs) = renderCells fs := by
  have e : renderCells fs = ('|' :: (' ' :: joinSep (lit " | ") fs ++ [' '])) ++ ['|'] := by
    simp [renderCells, lit, List.append_assoc]
  rw [e]
  exact pyStrip_eq_self_shape (by decide) (by decide) _

/-! ## Supporting lemmas: character classes, search and update -/

theorem pyStrip_eq_self_of_ends {l : Str} (h1 : isWS (l.headD '!') = false)
    (h2 : isWS (l.getLastD '!') = false) : pyStrip l = l := by
  rcases l.eq_nil_or_concat with rfl | ⟨Z, d, rfl⟩
  · rfl
  · rw [List.concat_eq_append] at *
    cases Z with
    | nil =>
      have : isWS d = false := by simpa using h2
      simpa using pyStrip_singleton this
    | cons c Z' =>
      have hc : isWS c = false := by simpa using h1
      have hd : isWS d = false := by
        have e : (c :: Z' ++ [d]).getLastD '!' = d := by
          rw [List.getLastD_concat]
        rw [e] at h2
        exact h2
      exact pyStrip_eq_self_shape hc hd Z'

theorem wfDate_not_mem {d : Str} (h : wfDate d) {c : Char} (hc1 : c.isDigit = false)
    (hc2 : c ≠ '-') : c ∉ d := by
  intro hm
  rcases h.2 c hm with h' | h'
  · rw [h'] at hc1
    exact absurd hc1 (by simp)
  · exact hc2 h'

theorem wfDate_nonws {d : Str} (h : wfDate d) : ∀ c ∈ d, isWS c = false := by
  intro c hc
  rcases h.2 c hc with h' | h'
  · cases hq : isWS c with
    | false => rfl
    | true =>
      have hcases : ((c = ' ' ∨ c = '\t') ∨ c = '\n') ∨ c = '\r' := by
        simpa [isWS, beq_iff_eq] using hq
      rcases hcases with ((rfl | rfl) | rfl) | rfl <;> exact absurd h' (by decide)
  · subst h'
    decide

theorem wfDate_pyStrip {d : Str} (h : wfDate d) : pyStrip d = d := by
  apply pyStrip_eq_self_of_ends
  · cases d with
    | nil => decide
    | cons c m => exact wfDate_nonws h c (List.mem_cons_self c m)
  · rcases d.eq_nil_or_concat with rfl | ⟨Z, e, he⟩
    · decide
    · rw [List.concat_eq_append] at he
      subst he
      rw [List.getLastD_concat]
      exact wfDate_nonws h e (List.mem_append.mpr (Or.inr (List.mem_cons_self e [])))

theorem natToStrGo_digits : ∀ (fuel n : Nat), ∀ c ∈ natToStrGo fuel n, c.isDigit = true := by
  intro fuel
  induction fuel with
  | zero => intro n c hc; exact absurd hc (List.not_mem_nil c)
  | succ fuel ih =>
    intro n c hc
    simp only [natToStrGo] at hc
    split at hc
    · next h =>
      simp only [List.mem_singleton] at hc
      subst hc
      interval_cases n <;> decide
    · next h =>
      rcases List.mem_append.mp hc with hm | hm
      · exact ih (n / 10) c hm
      · simp only [List.mem_singleton] at hm
        subst hm
        have : n % 10 < 10 := Nat.mod_lt n (by omega)
        interval_cases hmod : n % 10 <;> decide

theorem natToStr_digits (n : Nat) : ∀ c ∈ natToStr n, c.isDigit = true :=
  natToStrGo_digits (n + 1) n

theorem digit_not_mem_natToStr {c : Char} (hc : c.isDigit = false) (n : Nat) :
    c ∉ natToStr n := fun hm => absurd (natToStr_digits n c hm) (by simp [hc])

theorem wfComment_commentOf (streak : Nat) (status : Str) :
    wfComment (commentOf streak status) := by
  unfold commentOf
  split
  · have hshape : lit "🔥 " ++ natToStr streak ++ lit " day streak!" =
        ('🔥' :: (' ' :: natToStr streak ++ lit " day streak")) ++ ['!'] := by
      have : lit " day streak!" = lit " day streak" ++ ['!'] := by decide
      rw [this]
      simp [lit, List.append_assoc]
    have hmem : ∀ c : Char, c.isDigit = false → c ∉ lit "🔥 " → c ∉ lit " day streak!" →
        c ∉ lit "🔥 " ++ natToStr streak ++ lit " day streak!" := by
      intro c hdig h1 h2 hm
      rcases List.mem_append.mp hm with hm' | hm'
      · rcases List.mem_append.mp hm' with hm'' | hm''
        · exact h1 hm''
        · exact digit_not_mem_natToStr hdig streak hm''
      · exact h2 hm'
    refine ⟨by simp [lit], ?_, ?_, ?_, ?_⟩
    · rw [hshape]
      exact pyStrip_eq_self_shape (by decide) (by decide) _
    · exact hmem '|' (by decide) (by decide) (by decide)
    · exact hmem '\n' (by decide) (by decide) (by decide)
    · exact @pyContains_false_of_not_mem (lit "Date") _ 'D' (by decide)
        (hmem 'D' (by decide) (by decide) (by decide))
  · split
    · exact ⟨by decide, by decide, by decide, by decide, by decide⟩
    · exact ⟨by decide, by decide, by decide, by decide, by decide⟩

theorem findFirstIdx_none_iff {p : Str → Bool} {L : List Str} :
    findFirstIdx p L = none ↔ ∀ l ∈ L, p l = false := by
  induction L with
  | nil => simp [findFirstIdx]
  | cons x rest ih =>
    by_cases hx : p x = true
    · simp [findFirstIdx, hx]
    · rw [Bool.not_eq_true] at hx
      simp only [findFirstIdx, hx, Bool.false_eq_true, if_false, Option.map_eq_none',
        List.mem_cons, ih]
      constructor
      · intro h l hl
        rcases hl with rfl | hl'
        · exact hx
        · exact h l hl'
      · intro h l hl
        exact h l (Or.inr hl)

theorem findFirstIdx_some_spec {p : Str → Bool} :
    ∀ {L : List Str} {i : Nat}, findFirstIdx p L = some i →
      i < L.length ∧ p (L.getD i []) = true ∧ ∀ j < i, p (L.getD j []) = false := by
  intro L
  induction L with
  | nil => intro i h; simp [findFirstIdx] at h
  | cons x rest ih =>
    intro i h
    simp only [findFirstIdx] at h
    by_cases hx : p x = true
    · rw [if_pos hx] at h
      cases h
      exact ⟨by simp, by simpa using hx, by omega⟩
    · rw [if_neg hx] at h
      rcases Option.map_eq_some'.mp h with ⟨i', hi', rfl⟩
      rcases ih hi' with ⟨h1, h2, h3⟩
      refine ⟨by simpa using h1, by simpa using h2, ?_⟩
      intro j hj
      cases j with
      | zero => simpa using Bool.not_eq_true _ |>.mp hx
      | succ j' =>
        have hj' : j' < i' := by omega
        simpa using h3 j' hj'

theorem findFirstIdx_append_none {p : Str → Bool} {a : List Str}
    (h : ∀ l ∈ a, p l = false) (b : List Str) :
    findFirstIdx p (a ++ b) = (findFirstIdx p b).map (· + a.length) := by
  induction a with
  | nil => simp
  | cons x rest ih =>
    have hx : p x = false := h x (List.mem_cons_self x rest)
    have hrest : ∀ l ∈ rest, p l = false := fun l hl => h l (List.mem_cons_of_mem x hl)
    rw [show (x :: rest) ++ b = x :: (rest ++ b) from rfl]
    simp only [findFirstIdx, hx, Bool.false_eq_true, if_false]
    rw [ih hrest, Option.map_map]
    cases hb : findFirstIdx p b with
    | none => simp
    | some i =>
      simp only [Option.map_some', Function.comp_apply, Option.some.injEq, List.length_cons]
      omega

theorem setAt_eq_take_drop {x : Str} :
    ∀ {L : List Str} {i : Nat}, i < L.length →
      setAt L i x = L.take i ++ x :: L.drop (i + 1) := by
  intro L
  induction L with
  | nil => intro i h; simp at h
  | cons y rest ih =>
    intro i h
    cases i with
    | zero => simp [setAt]
    | succ i' =>
      have : i' < rest.length := by simpa using h
      simp [setAt, ih this]

theorem getD_eq_of_take_drop {L : List Str} {i : Nat} (h : i < L.length) :
    L = L.take i ++ L.getD i [] :: L.drop (i + 1) := by
  conv_lhs => rw [← List.take_append_drop i L]
  congr 1
  rw [List.getD_eq_getElem?_getD, List.getElem?_eq_getElem h]
  rw [List.drop_eq_getElem_cons h]
  simp

/-! ## Supporting lemmas: tracker rows -/

theorem wfDate_wfCellLike {t : Str} (ht : wfDate t) :
    t ≠ [] ∧ pyStrip t = t ∧ '|' ∉ t :=
  ⟨ht.1, wfDate_pyStrip ht, wfDate_not_mem ht (by decide) (by decide)⟩

theorem pyParts_goodRow {t h s c : Str} (ht : wfDate t) (hh : wfField h) (hs : wfField s)
    (hc : wfComment c) : pyParts (renderCells [t, h, s, c]) = [t, h, s, c] := by
  apply pyParts_renderCells _ (by simp)
  intro f hf
  simp only [List.mem_cons, List.not_mem_nil, or_false] at hf
  rcases hf with rfl | rfl | rfl | rfl
  · exact wfDate_wfCellLike ht
  · exact ⟨hh.1, hh.2.1, hh.2.2.1⟩
  · exact ⟨hs.1, hs.2.1, hs.2.2.1⟩
  · exact ⟨hc.1, hc.2.1, hc.2.2.1⟩

theorem pyContains_Date_goodRow {t h s c : Str} (ht : wfDate t) (hh : wfField h)
    (hs : wfField s) (hc : wfComment c) :
    pyContains (lit "Date") (renderCells [t, h, s, c]) = false := by
  rw [pyContains_renderCells (by decide) (by decide) (by decide)]
  have htD : pyContains (lit "Date") t = false :=
    @pyContains_false_of_not_mem (lit "Date") t 'D' (by decide)
      (wfDate_not_mem ht (by decide) (by decide))
  simp [htD, hh.2.2.2.2, hs.2.2.2.2, hc.2.2.2.2]

theorem sepStart_goodRow {t : Str} (ht : wfDate t) (rest : List Str) :
    pyStartsWith (lit "| :---") (renderCells (t :: rest)) = false := by
  have hshape : ∃ X, renderCells (t :: rest) = '|' :: ' ' :: (t ++ X) := by
    cases rest with
    | nil => exact ⟨lit " |", by simp [renderCells, joinSep, lit, List.append_assoc]⟩
    | cons g gs => exact ⟨' ' :: renderCells (g :: gs), renderCells_cons_cons t g gs⟩
  obtain ⟨X, hX⟩ := hshape
  obtain ⟨cz, t', rfl⟩ : ∃ cz t', t = cz :: t' := by
    cases t with
    | nil => exact absurd rfl ht.1
    | cons cz t' => exact ⟨cz, t', rfl⟩
  have hcz : (':' == cz) = false := by
    have hne : cz ≠ ':' := by
      intro e
      subst e
      rcases ht.2 ':' (List.mem_cons_self _ t') with h' | h'
      · exact absurd h' (by decide)
      · exact absurd h' (by decide)
    have hne' : ¬ (':' = cz) := fun e => hne e.symm
    simp [hne']
  rw [hX]
  simp [lit, pyStartsWith, hcz]

theorem trackerRowMatch_goodRow {t h s c : Str} (ht : wfDate t) (hh : wfField h)
    (hs : wfField s) (hc : wfComment c) (d hb : Str) :
    trackerRowMatch d hb (renderCells [t, h, s, c]) = (t == d && h == hb) := by
  unfold trackerRowMatch
  rw [if_neg ?_]
  · rw [pyParts_goodRow ht hh hs hc]
    simp
  · intro hcond
    rcases hcond with hcond | hcond | hcond
    · rw [pyStartsWith_pipe_renderCells] at hcond
      cases hcond
    · rw [sepStart_goodRow ht] at hcond
      cases hcond
    · rw [pyContains_Date_goodRow ht hh hs hc] at hcond
      cases hcond

theorem trackerRowMatch_nil (d hb : Str) : trackerRowMatch d hb [] = false := by
  unfold trackerRowMatch
  rw [if_pos]
  exact Or.inl (by decide)

theorem trackerRowMatch_pre (d hb : Str) : ∀ l ∈ trackerPre, trackerRowMatch d hb l = false := by
  intro l hl
  simp only [trackerPre, List.mem_cons, List.not_mem_nil, or_false] at hl
  rcases hl with rfl | rfl | rfl | rfl
  · unfold trackerRowMatch
    rw [if_pos]
    exact Or.inl (by decide)
  · exact trackerRowMatch_nil d hb
  · unfold trackerRowMatch
    rw [if_pos]
    exact Or.inr (Or.inr (by decide))
  · unfold trackerRowMatch
    rw [if_pos]
    exact Or.inr (Or.inl (by decide))

theorem dataRowKeyIs_goodRow {t h s c : Str} (ht : wfDate t) (hh : wfField h)
    (hs : wfField s) (hc : wfComment c) (d hb : Str) :
    dataRowKeyIs d hb (renderCells [t, h, s, c]) = (t == d && h == hb) := by
  unfold dataRowKeyIs
  rw [pyStartsWith_pipe_renderCells, sepStart_goodRow ht, pyParts_goodRow ht hh hs hc]
  show (true && !false && (([t, h] : List Str) == [d, hb])) = (t == d && h == hb)
  have : (([t, h] : List Str) == [d, hb]) = (t == d && (h == hb && true)) := rfl
  rw [this]
  simp

theorem dataRowKeyIs_nil (d hb : Str) : dataRowKeyIs d hb [] = false := rfl

/-! ## Supporting lemmas: the tracker invariant -/

theorem goodRow_no_newline {l : Str} (h : GoodRow l) : ('\n' : Char) ∉ l := by
  obtain ⟨t, hb, s, c, ht, hh, hs, hc, rfl⟩ := h
  apply newline_not_mem_renderCells
  intro f hf
  simp only [List.mem_cons, List.not_mem_nil, or_false] at hf
  rcases hf with rfl | rfl | rfl | rfl
  · exact wfDate_not_mem ht (by decide) (by decide)
  · exact hh.2.2.2.1
  · exact hs.2.2.2.1
  · exact hc.2.2.2.1

theorem goodRow_ends_pipe {l : Str} (h : GoodRow l) : ∃ m, l = m ++ ['|'] := by
  obtain ⟨t, hb, s, c, _, _, _, _, rfl⟩ := h
  exact ⟨'|' :: (' ' :: joinSep (lit " | ") [t, hb, s, c] ++ [' ']), by
    simp [renderCells, lit, List.append_assoc]⟩

theorem goodRow_ne_nil {l : Str} (h : GoodRow l) : l ≠ [] := by
  obtain ⟨m, hm⟩ := goodRow_ends_pipe h
  simp [hm]

theorem inv_no_newline {L : List Str} (hInv : TrackerInv L) : ∀ l ∈ L, ('\n' : Char) ∉ l := by
  obtain ⟨body, rfl, hgood, _, _⟩ := hInv
  intro l hl
  rcases List.mem_append.mp hl with hl' | hl'
  · simp only [trackerPre, List.mem_cons, List.not_mem_nil, or_false] at hl'
    rcases hl' with rfl | rfl | rfl | rfl <;> decide
  · rcases hgood l hl' with rfl | hg
    · simp
    · exact goodRow_no_newline hg

theorem inv_last_pipe {L : List Str} (hInv : TrackerInv L) :
    ∃ m, L.getLast? = some (m ++ ['|']) := by
  obtain ⟨body, rfl, hgood, hlast, _⟩ := hInv
  cases hbody : body.getLast? with
  | none =>
    have hb : body = [] := by
      cases body with
      | nil => rfl
      | cons b bs => simp [List.getLast?_eq_getLast] at hbody
    subst hb
    refine ⟨lit "| :--- | :--- | :--- | :--- ", ?_⟩
    decide
  | some r =>
    have hne : body ≠ [] := by
      intro e
      rw [e] at hbody
      simp at hbody
    have hLlast : (trackerPre ++ body).getLast? = some r := by
      rw [List.getLast?_append_of_ne_nil _ hne, hbody]
    have hr : r ≠ [] := hlast r hbody
    have hrmem : r ∈ body := List.mem_of_mem_getLast? hbody
    rcases hgood r hrmem with rfl | hg
    · exact absurd rfl hr
    · obtain ⟨m, rfl⟩ := goodRow_ends_pipe hg
      exact ⟨m, hLlast⟩

theorem pyJoin_head_shape (x : Str) (rest : List Str) :
    ∃ X, pyJoin '\n' (x :: rest) = x ++ X := by
  cases rest with
  | nil => exact ⟨[], by simp [pyJoin]⟩
  | cons y ys => exact ⟨'\n' :: pyJoin '\n' (y :: ys), rfl⟩

theorem pyJoin_last_shape :
    ∀ {L : List Str} {r : Str}, L.getLast? = some r → ∃ Y, pyJoin '\n' L = Y ++ r := by
  intro L
  induction L with
  | nil => intro r h; simp at h
  | cons x rest ih =>
    intro r h
    cases rest with
    | nil =>
      have : x = r := by simpa using h
      subst this
      exact ⟨[], by simp [pyJoin]⟩
    | cons y ys =>
      rw [List.getLast?_cons_cons] at h
      obtain ⟨Y, hY⟩ := ih h
      refine ⟨x ++ '\n' :: Y, ?_⟩
      show x ++ '\n' :: pyJoin '\n' (y :: ys) = (x ++ '\n' :: Y) ++ r
      rw [hY]
      simp [List.append_assoc]

theorem pyStrip_ends_pipe_ne_nil (m : Str) : pyStrip (m ++ ['|']) ≠ [] := by
  have h1 : dropTrail (m ++ ['|']) = m ++ ['|'] := dropTrail_eq_self (by decide)
  unfold pyStrip
  rw [h1]
  intro hnil
  have := List.dropWhile_eq_nil_iff.mp hnil '|' (by simp)
  exact absurd this (by decide)

theorem pyStrip_pyJoin_eq {L : List Str} (hhead : ∃ hd, L.headD [] = '#' :: hd)
    (hlast : ∃ m, L.getLast? = some (m ++ ['|'])) :
    pyStrip (pyJoin '\n' L) = pyJoin '\n' L := by
  obtain ⟨hd, hh⟩ := hhead
  obtain ⟨m, hl⟩ := hlast
  obtain ⟨x, rest, rfl⟩ : ∃ x rest, L = x :: rest := by
    cases L with
    | nil => simp at hl
    | cons x rest => exact ⟨x, rest, rfl⟩
  have hx : x = '#' :: hd := by simpa using hh
  subst hx
  obtain ⟨X, hX⟩ := pyJoin_head_shape ('#' :: hd) rest
  obtain ⟨Y, hY⟩ := pyJoin_last_shape hl
  apply pyStrip_eq_self_of_ends
  · rw [hX]
    show isWS (('#' :: (hd ++ X)).headD '!') = false
    rw [List.headD_cons]
    decide
  · rw [hY, ← List.append_assoc]
    rw [List.getLastD_concat]
    decide

theorem setAt_append_right {a : List Str} :
    ∀ {i : Nat}, a.length ≤ i → ∀ (b : List Str) (x : Str),
      setAt (a ++ b) i x = a ++ setAt b (i - a.length) x := by
  induction a with
  | nil => intro i _ b x; simp [setAt]
  | cons y ys ih =>
    intro i h b x
    cases i with
    | zero => simp at h
    | succ i' =>
      have h' : ys.length ≤ i' := by simpa using h
      have e : i' + 1 - (y :: ys).length = i' - ys.length := by
        simp only [List.length_cons]
        omega
      rw [e]
      show y :: setAt (ys ++ b) i' x = y :: (ys ++ setAt b (i' - ys.length) x)
      rw [ih h' b x]

theorem mem_setAt {x : Str} :
    ∀ {b : List Str} {j : Nat} {l : Str}, l ∈ setAt b j x → l ∈ b ∨ l = x := by
  intro b
  induction b with
  | nil => intro j l h; simp [setAt] at h
  | cons y ys ih =>
    intro j l h
    cases j with
    | zero =>
      rcases List.mem_cons.mp h with rfl | h'
      · exact Or.inr rfl
      · exact Or.inl (List.mem_cons_of_mem y h')
    | succ j' =>
      rcases List.mem_cons.mp h with rfl | h'
      · exact Or.inl (List.mem_cons_self l ys)
      · rcases ih h' with h'' | h''
        · exact Or.inl (List.mem_cons_of_mem y h'')
        · exact Or.inr h''

theorem mem_getD {L : List Str} {i : Nat} (h : i < L.length) : L.getD i [] ∈ L := by
  rw [List.getD_eq_getElem?_getD, List.getElem?_eq_getElem h]
  simp only [Option.getD_some]
  exact List.getElem_mem h

theorem goodRow_match_eq {l : Str} (hg : GoodRow l) (d hb : Str) :
    dataRowKeyIs d hb l = trackerRowMatch d hb l := by
  obtain ⟨t, h, s, c, ht, hh, hs, hc, rfl⟩ := hg
  rw [dataRowKeyIs_goodRow ht hh hs hc, trackerRowMatch_goodRow ht hh hs hc]

theorem goodRow_match_all {l : Str} (hg : GoodRow l) {d hb : Str}
    (hm : trackerRowMatch d hb l = true) :
    ∀ d' hb', trackerRowMatch d' hb' l = (d == d' && hb == hb') := by
  obtain ⟨t, h, s, c, ht, hh, hs, hc, rfl⟩ := hg
  rw [trackerRowMatch_goodRow ht hh hs hc] at hm
  obtain ⟨h1, h2⟩ := Bool.and_eq_true_iff.mp hm
  have ht' : t = d := by simpa using h1
  have hh' : h = hb := by simpa using h2
  subst ht'
  subst hh'
  intro d' hb'
  exact trackerRowMatch_goodRow ht hh hs hc d' hb'

/-! ## Supporting lemmas: the log_habit step -/

theorem newRowOf_goodRow {today habit status : Str} (ht : wfDate today) (hh : wfField habit)
    (hs : wfField status) (content : Str) : GoodRow (newRowOf today habit status content) :=
  ⟨today, habit, status, commentOf (computeStreak habit status content) status,
    ht, hh, hs, wfComment_commentOf _ _, rfl⟩

theorem newRowOf_match {today habit status : Str} (ht : wfDate today) (hh : wfField habit)
    (hs : wfField status) (content : Str) (d hb : Str) :
    trackerRowMatch d hb (newRowOf today habit status content) = (today == d && habit == hb) :=
  trackerRowMatch_goodRow ht hh hs (wfComment_commentOf _ _) d hb

theorem trackerPre_length : trackerPre.length = 4 := rfl

theorem finalize_lines {L2 : List Str} (hInv2 : TrackerInv L2) :
    TCInv (pyStrip (pyJoin '\n' L2) ++ ['\n']) ∧
    splitlines (pyStrip (pyJoin '\n' L2) ++ ['\n']) = L2 := by
  have hhead : ∃ hd, L2.headD [] = '#' :: hd := by
    obtain ⟨body2, rfl, _, _, _⟩ := hInv2
    refine ⟨lit " Habit Tracker 🏃", ?_⟩
    rfl
  have hlast := inv_last_pipe hInv2
  have hstrip : pyStrip (pyJoin '\n' L2) = pyJoin '\n' L2 := pyStrip_pyJoin_eq hhead hlast
  have hne : L2 ≠ [] := by
    obtain ⟨body2, rfl, _, _, _⟩ := hInv2
    simp [trackerPre]
  constructor
  · exact ⟨L2, by rw [hstrip], hInv2⟩
  · rw [hstrip]
    exact splitlines_join (inv_no_newline hInv2) hne

theorem logHabit_step {today habit status : Str} (ht : wfDate today) (hh : wfField habit)
    (hs : wfField status) {content : Str} (hTC : TCInv content) :
    TCInv (logHabitContent today habit status content) ∧
    splitlines (logHabitContent today habit status content) =
      (match findFirstIdx (trackerRowMatch today habit) (splitlines content) with
        | some i => setAt (splitlines content) i (newRowOf today habit status content)
        | none => splitlines content ++ [[], newRowOf today habit status content]) := by
  obtain ⟨L, rfl, hInv⟩ := hTC
  have hInvKeep := hInv
  obtain ⟨body, hLbody, hgood, hlastne, hcount⟩ := hInv
  have hnl : ∀ l ∈ L, ('\n' : Char) ∉ l := inv_no_newline hInvKeep
  have hLne : L ≠ [] := by
    rw [hLbody]
    simp [trackerPre]
  have hsl : splitlines (pyJoin '\n' L ++ ['\n']) = L := splitlines_join hnl hLne
  have hNewGood : GoodRow (newRowOf today habit status (pyJoin '\n' L ++ ['\n'])) :=
    newRowOf_goodRow ht hh hs _
  have hNewMatch := newRowOf_match ht hh hs (pyJoin '\n' L ++ ['\n'])
  have hlen : L.length = 4 + body.length := by
    rw [hLbody]
    simp only [List.length_append, trackerPre_length]
  cases hfind : findFirstIdx (trackerRowMatch today habit) L with
  | some i =>
    obtain ⟨hi, hpi, _⟩ := findFirstIdx_some_spec hfind
    have hi4 : 4 ≤ i := by
      by_contra h4
      push_neg at h4
      have hgd : L.getD i [] = trackerPre.getD i [] := by
        rw [hLbody]
        exact List.getD_append _ _ _ _ (by rw [trackerPre_length]; omega)
      have hfalse := trackerRowMatch_pre today habit (trackerPre.getD i [])
        (mem_getD (by rw [trackerPre_length]; omega))
      rw [hgd, hfalse] at hpi
      cases hpi
    have hOldMem : L.getD i [] ∈ L := mem_getD hi
    have hOldBody : L.getD i [] ∈ body := by
      have hm : L.getD i [] ∈ trackerPre ++ body := by
        rw [← hLbody]
        exact hOldMem
      rcases List.mem_append.mp hm with hp | hb'
      · rw [trackerRowMatch_pre today habit _ hp] at hpi
        cases hpi
      · exact hb'
    have hOldGood : GoodRow (L.getD i []) := by
      rcases hgood _ hOldBody with he | hg
      · rw [he, trackerRowMatch_nil] at hpi
        cases hpi
      · exact hg
    have hOldAll := goodRow_match_all hOldGood hpi
    have hpre_le : trackerPre.length ≤ i := by rw [trackerPre_length]; exact hi4
    have hbodyi : i - 4 < body.length := by omega
    have hL2body : setAt L i (newRowOf today habit status (pyJoin '\n' L ++ ['\n'])) =
        trackerPre ++ setAt body (i - trackerPre.length)
          (newRowOf today habit status (pyJoin '\n' L ++ ['\n'])) := by
      rw [hLbody, setAt_append_right hpre_le]
    have hInv2 : TrackerInv (setAt L i (newRowOf today habit status (pyJoin '\n' L ++ ['\n']))) := by
      refine ⟨_, hL2body, ?_, ?_, ?_⟩
      · intro l hl
        rcases mem_setAt hl with hl' | rfl
        · exact hgood l hl'
        · exact Or.inr hNewGood
      · intro r hr
        rw [trackerPre_length, setAt_eq_take_drop hbodyi] at hr
        cases hdrop : body.drop (i - 4 + 1) with
        | nil =>
          rw [hdrop, List.getLast?_append_of_ne_nil _ (by simp)] at hr
          simp only [List.getLast?_singleton, Option.some.injEq] at hr
          rw [← hr]
          exact goodRow_ne_nil hNewGood
        | cons z zs =>
          rw [hdrop, List.getLast?_append_of_ne_nil _ (by simp),
            List.getLast?_cons_cons] at hr
          have hbodydec : body = body.take (i - 4) ++ body.getD (i - 4) [] :: body.drop (i - 4 + 1) :=
            getD_eq_of_take_drop hbodyi
          apply hlastne r
          rw [hbodydec, hdrop, List.getLast?_append_of_ne_nil _ (by simp),
            List.getLast?_cons_cons]
          exact hr
      · intro d hb
        have hLdec : L = L.take i ++ L.getD i [] :: L.drop (i + 1) := getD_eq_of_take_drop hi
        have hc1 := hcount d hb
        rw [hLdec, List.countP_append, List.countP_cons] at hc1
        rw [setAt_eq_take_drop hi, List.countP_append, List.countP_cons]
        have heq : trackerRowMatch d hb (newRowOf today habit status (pyJoin '\n' L ++ ['\n'])) =
            trackerRowMatch d hb (L.getD i []) := by
          rw [hNewMatch d hb, hOldAll d hb]
        rw [heq]
        exact hc1
    have hlines : logHabitLines today habit status (pyJoin '\n' L ++ ['\n']) =
        setAt L i (newRowOf today habit status (pyJoin '\n' L ++ ['\n'])) := by
      unfold logHabitLines
      rw [hsl, hfind]
    have hfin := finalize_lines hInv2
    constructor
    · unfold logHabitContent
      rw [hlines]
      exact hfin.1
    · unfold logHabitContent
      rw [hlines, hsl, hfind]
      exact hfin.2
  | none =>
    have hvals : ∀ l ∈ L, trackerRowMatch today habit l = false := findFirstIdx_none_iff.mp hfind
    obtain ⟨m, hm⟩ := inv_last_pipe hInvKeep
    have hcondL : L ≠ [] ∧ pyStrip (L.getLast?.getD []) ≠ [] := by
      refine ⟨hLne, ?_⟩
      rw [hm]
      exact pyStrip_ends_pipe_ne_nil m
    have hlines : logHabitLines today habit status (pyJoin '\n' L ++ ['\n']) =
        L ++ [[], newRowOf today habit status (pyJoin '\n' L ++ ['\n'])] := by
      unfold logHabitLines
      rw [hsl, hfind, if_pos hcondL]
      simp [List.append_assoc]
    have hInv2 : TrackerInv (L ++ [[], newRowOf today habit status (pyJoin '\n' L ++ ['\n'])]) := by
      refine ⟨body ++ [[], newRowOf today habit status (pyJoin '\n' L ++ ['\n'])],
        by rw [hLbody, List.append_assoc], ?_, ?_, ?_⟩
      · intro l hl
        rcases List.mem_append.mp hl with hl' | hl'
        · exact hgood l hl'
        · simp only [List.mem_cons, List.not_mem_nil, or_false] at hl'
          rcases hl' with rfl | rfl
          · exact Or.inl rfl
          · exact Or.inr hNewGood
      · intro r hr
        rw [List.getLast?_append_of_ne_nil _ (by simp), List.getLast?_cons_cons,
          List.getLast?_singleton, Option.some.injEq] at hr
        rw [← hr]
        exact goodRow_ne_nil hNewGood
      · intro d hb
        rw [List.countP_append]
        have h2 : List.countP (trackerRowMatch d hb)
            [[], newRowOf today habit status (pyJoin '\n' L ++ ['\n'])] =
            if trackerRowMatch d hb (newRowOf today habit status (pyJoin '\n' L ++ ['\n'])) then 1
            else 0 := by
          simp [List.countP_cons, List.countP_nil, trackerRowMatch_nil]
        rw [h2, hNewMatch d hb]
        by_cases hkey : (today == d && habit == hb) = true
        · rw [hkey]
          have hkd : today = d := by
            have := Bool.and_eq_true_iff.mp hkey
            simpa using this.1
          have hkh : habit = hb := by
            have := Bool.and_eq_true_iff.mp hkey
            simpa using this.2
          have hz : L.countP (trackerRowMatch d hb) = 0 :=
            List.countP_eq_zero.mpr (fun l hl => by
              rw [← hkd, ← hkh]
              simp [hvals l hl])
          rw [hz]
          simp
        · have hkey' : (today == d && habit == hb) = false := by
            cases h : (today == d && habit == hb) with
            | false => rfl
            | true => exact absurd h hkey
          rw [hkey']
          simpa using hcount d hb
    have hfin := finalize_lines hInv2
    constructor
    · unfold logHabitContent
      rw [hlines]
      exact hfin.1
    · unfold logHabitContent
      rw [hlines, hsl, hfind]
      exact hfin.2

/-! ## Supporting lemmas: the tracker across call sequences -/

theorem inv_ne_nil {L : List Str} (hInv : TrackerInv L) : L ≠ [] := by
  obtain ⟨body, rfl, _, _, _⟩ := hInv
  simp [trackerPre]

theorem freshTracker_TCInv : TCInv freshTracker := by
  refine ⟨trackerPre, by decide, [], by simp, by simp, ?_, ?_⟩
  · intro r hr
    simp [trackerPre] at hr
  · intro d h
    have hz : List.countP (trackerRowMatch d h) trackerPre = 0 :=
      List.countP_eq_zero.mpr fun l hl => by simp [trackerRowMatch_pre d h l hl]
    simp [hz]

theorem runHabits_TCInv (calls : List HabitCall) (hw : ∀ c ∈ calls, wfCall c) :
    TCInv (runHabits calls) := by
  suffices h : ∀ (cs : List HabitCall) (content : Str), TCInv content →
      (∀ c ∈ cs, wfCall c) →
      TCInv (cs.foldl (fun c args => logHabitContent args.1 args.2.1 args.2.2 c) content) by
    exact h calls freshTracker freshTracker_TCInv hw
  intro cs
  induction cs with
  | nil => intro content hc _; exact hc
  | cons a rest ih =>
    intro content hc hw'
    have ha := hw' a (List.mem_cons_self a rest)
    exact ih _ ((logHabit_step ha.1 ha.2.1 ha.2.2 hc).1)
      (fun c hc' => hw' c (List.mem_cons_of_mem a hc'))

theorem inv_dataRow_unique {L : List Str} (hInv : TrackerInv L) (d hb : Str) :
    L.countP (dataRowKeyIs d hb) ≤ 1 := by
  obtain ⟨body, rfl, hgood, _, hcount⟩ := hInv
  rw [List.countP_append]
  have hTitle : dataRowKeyIs d hb (lit "# Habit Tracker 🏃") = false := by
    unfold dataRowKeyIs
    rw [show pyStartsWith (lit "|") (lit "# Habit Tracker 🏃") = false from by decide]
    rfl
  have hHdr : dataRowKeyIs d hb (lit "| Date | Habit | Status | Coach Comment |") =
      (lit "Date" == d && (lit "Habit" == hb && true)) := by
    unfold dataRowKeyIs
    rw [show pyStartsWith (lit "|") (lit "| Date | Habit | Status | Coach Comment |") = true
        from by decide,
      show pyStartsWith (lit "| :---") (lit "| Date | Habit | Status | Coach Comment |") = false
        from by decide,
      show pyParts (lit "| Date | Habit | Status | Coach Comment |") =
        [lit "Date", lit "Habit", lit "Status", lit "Coach Comment"] from by decide]
    rfl
  have hSep : dataRowKeyIs d hb (lit "| :--- | :--- | :--- | :--- |") = false := by
    unfold dataRowKeyIs
    rw [show pyStartsWith (lit "| :---") (lit "| :--- | :--- | :--- | :--- |") = true
        from by decide]
    simp
  have hbody_tm : List.countP (dataRowKeyIs d hb) body =
      List.countP (trackerRowMatch d hb) body := by
    apply List.countP_congr
    intro l hl
    rcases hgood l hl with rfl | hg
    · simp [dataRowKeyIs_nil, trackerRowMatch_nil]
    · rw [goodRow_match_eq hg]
  have hbody_le : List.countP (trackerRowMatch d hb) body ≤ 1 := by
    have hc := hcount d hb
    rw [List.countP_append] at hc
    omega
  by_cases hd1 : d = lit "Date" ∧ hb = lit "Habit"
  · obtain ⟨rfl, rfl⟩ := hd1
    have hbody0 : List.countP (dataRowKeyIs (lit "Date") (lit "Habit")) body = 0 := by
      apply List.countP_eq_zero.mpr
      intro l hl
      rcases hgood l hl with rfl | hg
      · simp [dataRowKeyIs_nil]
      · obtain ⟨t, h, s, c, ht, hh', hs', hc', rfl⟩ := hg
        rw [dataRowKeyIs_goodRow ht hh' hs' hc']
        have htne : t ≠ lit "Date" := by
          intro e
          have hD : 'D' ∈ t := by rw [e]; decide
          exact wfDate_not_mem ht (by decide) (by decide) hD
        simp [htne]
    rw [hbody0]
    have hpre1 : List.countP (dataRowKeyIs (lit "Date") (lit "Habit")) trackerPre = 1 := by
      decide
    rw [hpre1]
  · have hpre0 : List.countP (dataRowKeyIs d hb) trackerPre = 0 := by
      apply List.countP_eq_zero.mpr
      intro l hl
      simp only [trackerPre, List.mem_cons, List.not_mem_nil, or_false] at hl
      rcases hl with rfl | rfl | rfl | rfl
      · simp [hTitle]
      · simp [dataRowKeyIs_nil]
      · intro habs
        rw [hHdr] at habs
        rcases Bool.and_eq_true_iff.mp habs with ⟨h1, h2⟩
        rcases Bool.and_eq_true_iff.mp h2 with ⟨h2', _⟩
        exact hd1 ⟨(by simpa using h1 : lit "Date" = d).symm,
          (by simpa using h2' : lit "Habit" = hb).symm⟩
      · simp [hSep]
    rw [hpre0, hbody_tm]
    omega

/-! ## Supporting lemmas: the finance round trip -/

theorem pySplit_newline_cons (r : Str) : pySplit '\n' ('\n' :: r) = [] :: pySplit '\n' r := by
  simp [pySplit]

theorem pySplit_concat_line (x : Str) (hx : '\n' ∉ x) (r : Str) :
    pySplit '\n' (x ++ '\n' :: r) = x :: pySplit '\n' r := by
  rw [pySplit_append, pySplit_no_sep hx]
  rfl

theorem pySplit_two_seg (x y : Str) (hx : '\n' ∉ x) (hy : '\n' ∉ y) (r : Str) :
    pySplit '\n' (x ++ (y ++ '\n' :: r)) = (x ++ y) :: pySplit '\n' r := by
  rw [← List.append_assoc]
  refine pySplit_concat_line (x ++ y) ?_ r
  intro hm
  rcases List.mem_append.mp hm with h | h
  · exact hx h
  · exact hy h

theorem pySplit_rowblock {rows : List Str} (h : ∀ r ∈ rows, '\n' ∉ r) :
    pySplit '\n' ((rows.map (fun r => r ++ ['\n'])).flatten) = rows ++ [[]] := by
  induction rows with
  | nil => simp [pySplit]
  | cons r rest ih =>
    have hr : '\n' ∉ r := h r (List.mem_cons_self r rest)
    have hrest : ∀ x ∈ rest, '\n' ∉ x := fun x hx => h x (List.mem_cons_of_mem r hx)
    simp only [List.map_cons, List.flatten_cons, List.append_assoc, List.singleton_append]
    rw [pySplit_concat_line r hr, ih hrest]
    rfl

theorem runTxs_aux (date month : Str) (txs : List TxIn) :
    ∀ c : Str, txs.foldl (fun fs tx => logTransaction date month tx fs) (some c) =
      some (c ++ (txs.map (fun tx => txRow tx ++ ['\n'])).flatten) := by
  induction txs with
  | nil => intro c; simp
  | cons tx rest ih =>
    intro c
    rw [List.foldl_cons,
      show logTransaction date month tx (some c) = some (c ++ txRow tx ++ ['\n']) from rfl,
      ih]
    simp [List.append_assoc]

theorem runTxs_content (date month : Str) (txs : List TxIn) :
    (runTxs date month txs).getD (freshFinance date month) =
      freshFinance date month ++ (txs.map (fun tx => txRow tx ++ ['\n'])).flatten := by
  cases txs with
  | nil => simp [runTxs]
  | cons tx rest =>
    unfold runTxs
    rw [List.foldl_cons,
      show logTransaction date month tx none =
        some (freshFinance date month ++ txRow tx ++ ['\n']) from rfl,
      runTxs_aux]
    simp [List.append_assoc]

theorem content_split (date month : Str) (hd : '\n' ∉ date) (hm : '\n' ∉ month)
    {rows : List Str} (hrows : ∀ r ∈ rows, '\n' ∉ r) :
    pySplit '\n' (freshFinance date month ++ (rows.map (fun r => r ++ ['\n'])).flatten) =
      freshLines date month ++ (rows ++ [[]]) := by
  have e1 : lit "---\ntype: finance_log\nstatus: active\ncreated: " =
      lit "---" ++ '\n' :: (lit "type: finance_log" ++ '\n' ::
        (lit "status: active" ++ '\n' :: lit "created: ")) := by decide
  have e2 : lit "\n---\n\n# Financial Log: " =
      '\n' :: (lit "---" ++ '\n' :: '\n' :: lit "# Financial Log: ") := by decide
  have e3 : lit "\n\n| Date | Type | Category | Description | Amount | Currency |\n| :--- | :--- | :--- | :--- | :--- | :--- |\n" =
      '\n' :: '\n' :: (financeHeadersRow ++ '\n' :: (financeSepRow ++ ['\n'])) := by decide
  show pySplit '\n' ((lit "---\ntype: finance_log\nstatus: active\ncreated: " ++ date ++
      lit "\n---\n\n# Financial Log: " ++ month ++
      lit "\n\n| Date | Type | Category | Description | Amount | Currency |\n| :--- | :--- | :--- | :--- | :--- | :--- |\n") ++
      (rows.map (fun r => r ++ ['\n'])).flatten) = _
  rw [e1, e2, e3]
  simp only [List.append_assoc, List.cons_append, List.nil_append]
  rw [pySplit_concat_line (lit "---") (by decide),
    pySplit_concat_line (lit "type: finance_log") (by decide),
    pySplit_concat_line (lit "status: active") (by decide),
    pySplit_two_seg (lit "created: ") date (by decide) hd,
    pySplit_concat_line (lit "---") (by decide),
    pySplit_newline_cons,
    pySplit_two_seg (lit "# Financial Log: ") month (by decide) hm,
    pySplit_newline_cons,
    pySplit_concat_line financeHeadersRow (by decide),
    pySplit_concat_line financeSepRow (by decide),
    pySplit_rowblock hrows]
  simp [freshLines]

theorem wfCell_inferCategory {cat : Str} (desc : Str) (hc : wfCell cat) :
    wfCell (inferCategory cat desc) := by
  unfold inferCategory
  by_cases h : cat = lit "General"
  · rw [if_pos h]
    dsimp only
    split
    · decide
    · split
      · decide
      · split
        · decide
        · split
          · decide
          · decide
  · rw [if_neg h]
    exact hc

theorem wfTx_cells {tx : TxIn} (h : wfTx tx) : ∀ f ∈ txCells tx, wfCell f := by
  intro f hf
  simp only [txCells, List.mem_cons, List.not_mem_nil, or_false] at hf
  rcases hf with rfl | rfl | rfl | rfl | rfl | rfl
  · exact h.1
  · exact h.2.2.2.1
  · exact wfCell_inferCategory tx.desc h.2.2.2.2.1
  · exact h.2.1
  · exact h.2.2.1
  · exact h.2.2.2.2.2

theorem txRow_no_newline {tx : TxIn} (h : wfTx tx) : ('\n' : Char) ∉ txRow tx := by
  unfold txRow
  exact newline_not_mem_renderCells (fun f hf => (wfTx_cells h f hf).2.2.2.1)

theorem parseStep_skip {st : List Str × List (List (Str × Str))} {raw : Str}
    (h : pyStrip raw = [] ∨ pyStartsWith (lit "|") (pyStrip raw) = false) :
    parseStep st raw = st := by
  simp only [parseStep]
  rw [if_pos h]

theorem parseStep_nil (st : List Str × List (List (Str × Str))) : parseStep st [] = st :=
  parseStep_skip (Or.inl rfl)

theorem parseStep_created (st : List Str × List (List (Str × Str))) (date : Str) :
    parseStep st (lit "created: " ++ date) = st := by
  obtain ⟨t, hstrip⟩ := @pyStrip_cons_nonws 'c' (by decide) (lit "reated: " ++ date)
  apply parseStep_skip
  right
  rw [show lit "created: " ++ date = 'c' :: (lit "reated: " ++ date) from rfl, hstrip]
  rfl

theorem parseStep_title (st : List Str × List (List (Str × Str))) (month : Str) :
    parseStep st (lit "# Financial Log: " ++ month) = st := by
  obtain ⟨t, hstrip⟩ := @pyStrip_cons_nonws '#' (by decide) (lit " Financial Log: " ++ month)
  apply parseStep_skip
  right
  rw [show lit "# Financial Log: " ++ month = '#' :: (lit " Financial Log: " ++ month) from rfl,
    hstrip]
  rfl

theorem parseStep_row {acc : List (List (Str × Str))} {tx : TxIn} (hwf : wfTx tx) :
    parseStep (financeHeaders, acc) (txRow tx) =
      (financeHeaders, acc ++ [financeHeaders.zip (txCells tx)]) := by
  have hcells := wfTx_cells hwf
  have hstrip : pyStrip (txRow tx) = txRow tx := pyStrip_renderCells _
  have hstart : pyStartsWith (lit "|") (txRow tx) = true := pyStartsWith_pipe_renderCells _
  have hne : txRow tx ≠ [] := by
    unfold txRow
    have hm : renderCells (txCells tx) = ('|' :: (' ' :: joinSep (lit " | ") (txCells tx) ++ [' '])) ++ ['|'] := by
      simp [renderCells, lit, List.append_assoc]
    rw [hm]
    simp
  have hsep : pyContains (lit ":---") (txRow tx) = false := by
    unfold txRow
    rw [pyContains_renderCells (by decide) (by decide) (by decide)]
    apply List.any_eq_false.mpr
    intro f hf
    simp [(hcells f hf).2.2.2.2]
  have hvalues : pyParts (txRow tx) = txCells tx := by
    unfold txRow
    exact pyParts_renderCells _ (by simp [txCells])
      (fun f hf => ⟨(hcells f hf).1, (hcells f hf).2.1, (hcells f hf).2.2.1⟩)
  simp only [parseStep]
  rw [hstrip, if_neg ?hc1, if_neg ?hc2, if_neg ?hc3, if_pos ?hc4, hvalues,
    if_pos ?hc5]
  case hc1 =>
    rintro (h | h)
    · exact hne h
    · rw [hstart] at h
      cases h
  case hc2 =>
    rintro ⟨_, h⟩
    simp [financeHeaders] at h
  case hc3 =>
    intro h
    rw [hsep] at h
    cases h
  case hc4 => simp [financeHeaders]
  case hc5 => simp [txCells, financeHeaders]

theorem parse_prefix (date month : Str) :
    List.foldl parseStep ([], []) (freshLines date month) = (financeHeaders, []) := by
  unfold freshLines
  simp only [List.foldl_cons, List.foldl_nil]
  rw [show parseStep ([], []) (lit "---") = ([], []) from by decide]
  rw [show parseStep ([], []) (lit "type: finance_log") = ([], []) from by decide]
  rw [show parseStep ([], []) (lit "status: active") = ([], []) from by decide]
  rw [parseStep_created ([], []) date]
  rw [show parseStep ([], []) (lit "---") = ([], []) from by decide]
  rw [show parseStep ([], []) ([] : Str) = ([], []) from by decide]
  rw [parseStep_title ([], []) month]
  rw [show parseStep ([], []) ([] : Str) = ([], []) from by decide]
  rw [show parseStep ([], []) financeHeadersRow = (financeHeaders, []) from by decide]
  rw [show parseStep (financeHeaders, []) financeSepRow = (financeHeaders, []) from by decide]

theorem parse_rows (txs : List TxIn) (hwf : ∀ tx ∈ txs, wfTx tx) :
    ∀ acc, List.foldl parseStep (financeHeaders, acc) (txs.map txRow) =
      (financeHeaders, acc ++ txs.map (fun tx => financeHeaders.zip (txCells tx))) := by
  induction txs with
  | nil => intro acc; simp
  | cons tx rest ih =>
    intro acc
    simp only [List.map_cons, List.foldl_cons]
    rw [parseStep_row (hwf tx (List.mem_cons_self tx rest)),
      ih (fun t ht => hwf t (List.mem_cons_of_mem tx ht))]
    simp [List.append_assoc]

/-! ## Claim theorems on concrete evaluations -/

/-- C1: evaluation of `delete_specific_transaction`. On the ledger with
amounts 10, 20, 10, deleting with criteria "10" removes the third (most
recent) matching row, leaving amounts 10 and 20 — but on the same ledger the
criteria "status" matches no data row, and instead of reporting not-found
the code deletes the metadata line `status: active`, which is not a data
row; so the claim's universal statement fails on the code. -/
theorem C1_delete_most_recent_eval :
    deleteSpecific (lit "10") (some ledgerTen) =
      (lit "Successfully deleted transaction: " ++ txRow tx3, runTxs dC mC [tx1, tx2]) ∧
    (parseMarkdownTable ((runTxs dC mC [tx1, tx2]).getD [])).map (fun r => r.map Prod.snd) =
      [[tx1.dt, lit "Expense", lit "Food", lit "Lunch", lit "10", lit "USD"],
        [tx2.dt, lit "Expense", lit "Transport", lit "Taxi", lit "20", lit "USD"]] ∧
    (deleteSpecific (lit "status") (some ledgerTen)).1 =
      lit "Successfully deleted transaction: status: active" ∧
    pyStartsWith (lit "|") (lit "status: active") = false := by decide

/-- C2 counterexample: after two consecutive "Done" logs for habit "Run",
the streak the third call computes is not 3 — the scan runs over the rows
already recorded, before the new row is appended. -/
theorem C2_streak_claim_false :
    computeStreak (lit "Run") (lit "Done") trackerTwoDone ≠ 3 := by decide

/-- C2 amended: the streak is computed over the rows already in the tracker,
so the third consecutive "Done" call computes 2, and in the
done, done, missed, done sequence the final call computes 0. -/
theorem C2_streak_amended :
    computeStreak (lit "Run") (lit "Done") trackerTwoDone = 2 ∧
    computeStreak (lit "Run") (lit "done") trackerDDM = 0 := by decide

/-- C3: evaluation at the failing input. On a freshly created ledger the
criteria "active" deletes the frontmatter line `status: active`, which is
present in the fresh ledger and is not a data row — the scan's skip test
misses the `status:` metadata line, contradicting the claimed invariant. -/
theorem C3_metadata_deleted_eval :
    deleteSpecific (lit "active") (some (freshFinance dC mC)) =
      (lit "Successfully deleted transaction: status: active", some freshNoStatus) ∧
    lit "status: active" ∈ splitlines (freshFinance dC mC) ∧
    pyStartsWith (lit "|") (lit "status: active") = false ∧
    freshNoStatus ≠ freshFinance dC mC := by decide

/-- C4: round trip. For any sequence of well-formed transactions (each
rendered cell nonempty, stripped, and free of the delimiter, newlines and
the separator marker) appended through `log_transaction` to an initially
absent monthly ledger, `_parse_markdown_table` returns exactly the appended
records — same column values, same order. -/
theorem C4_roundtrip (date month : Str) (txs : List TxIn) (hd : '\n' ∉ date)
    (hm : '\n' ∉ month) (hwf : ∀ tx ∈ txs, wfTx tx) :
    parseMarkdownTable ((runTxs date month txs).getD (freshFinance date month)) =
      txs.map (fun tx => financeHeaders.zip (txCells tx)) := by
  rw [runTxs_content]
  unfold parseMarkdownTable
  rw [show (txs.map (fun tx => txRow tx ++ ['\n'])).flatten =
      ((txs.map txRow).map (fun r => r ++ ['\n'])).flatten from by rw [List.map_map]; rfl]
  rw [content_split date month hd hm
    (fun r hr => by
      obtain ⟨tx, htx, rfl⟩ := List.mem_map.mp hr
      exact txRow_no_newline (hwf tx htx))]
  rw [List.foldl_append, List.foldl_append, parse_prefix, parse_rows txs hwf []]
  simp only [List.foldl_cons, List.foldl_nil]
  rw [parseStep_nil]
  simp

/-- C4 witness: the round trip evaluated on two concrete transactions. -/
theorem C4_roundtrip_witness :
    parseMarkdownTable ((runTxs dC mC [tx1, tx2]).getD (freshFinance dC mC)) =
      [tx1, tx2].map (fun tx => financeHeaders.zip (txCells tx)) :=
  C4_roundtrip dC mC [tx1, tx2] (by decide) (by decide) (by
    intro tx htx
    simp only [List.mem_cons, List.not_mem_nil, or_false] at htx
    rcases htx with rfl | rfl
    · decide
    · decide)

/-- C5: the tool-execution step of the ReAct loop is a total function whose
result on an unregistered name is the fixed not-found string, and whose
result on a registered tool is the tool's string on success and the
exception's message rendered as a string on failure. -/
theorem C5_tool_dispatch {α : Type} (registry : List (String × (α → Except String String)))
    (name : String) (args : α) :
    (registry.lookup name = none →
      execToolStep registry name args = "Error: Tool " ++ name ++ " not found.") ∧
    (∀ f, registry.lookup name = some f →
      (∀ e, f args = Except.error e →
        execToolStep registry name args = "Error executing tool: " ++ e) ∧
      (∀ s, f args = Except.ok s → execToolStep registry name args = s)) := by
  refine ⟨fun h => by simp [execToolStep, h], fun f hf => ⟨fun e he => ?_, fun s hs => ?_⟩⟩
  · simp [execToolStep, hf, he]
  · simp [execToolStep, hf, hs]

/-- C5 witness: the dispatch contract evaluated on a concrete registry. -/
theorem C5_tool_dispatch_witness :
    execToolStep demoRegistry "missing" () = "Error: Tool missing not found." ∧
    execToolStep demoRegistry "boom" () = "Error executing tool: kaboom" ∧
    execToolStep demoRegistry "echo" () = "hello" :=
  ⟨(C5_tool_dispatch demoRegistry "missing" ()).1 rfl,
   ((C5_tool_dispatch demoRegistry "boom" ()).2 _ rfl).1 "kaboom" rfl,
   ((C5_tool_dispatch demoRegistry "echo" ()).2 _ rfl).2 "hello" rfl⟩

/-- C6: evaluation of the delete operations on empty and absent ledgers.
Both deletions return their not-found message on an absent file, `undo` on
a data-row-free file reports nothing to undo and on a populated ledger
removes the last data row — but `delete_specific_transaction` on the fresh
(data-row-free) ledger with criteria "active" reports success and removes a
metadata line instead of returning not-found, refuting the claim. -/
theorem C6_empty_ledger_eval :
    (∀ c : Str, deleteSpecific c none = (lit "No transaction file found for this month.", none)) ∧
    undoLast none = (lit "No transaction file found.", none) ∧
    undoLast (some (freshFinance dC mC)) =
      (lit "No transactions found to undo.", some (freshFinance dC mC)) ∧
    (deleteSpecific (lit "active") (some (freshFinance dC mC))).1 =
      lit "Successfully deleted transaction: status: active" ∧
    undoLast (some ledgerTen) =
      (lit "Undid last transaction: " ++ txRow tx3, runTxs dC mC [tx1, tx2]) := by
  refine ⟨fun c => rfl, by decide, by decide, by decide, by decide⟩

/-- C7: both ensure-exists operations are idempotent — a second call on the
resulting file system is the identity. -/
theorem C7_ensure_idempotent : ∀ (d m : Str) (fs : Option Str),
    ensureFinance d m (ensureFinance d m fs) = ensureFinance d m fs ∧
    ensureTracker (ensureTracker fs) = ensureTracker fs := by
  intro d m fs
  cases fs <;> simp [ensureFinance, ensureTracker]

/-- C9: the numeric-token match inspects the whole lowercased line, so with
criteria "10" the deleted (most recent matching) row is one whose Amount
cell is "25": the token "10" occurs only in its Date cell `2025-10-01
09:00`. -/
theorem C9_numeric_token_in_date :
    deleteSpecific (lit "10") (some ledgerNine) =
      (lit "Successfully deleted transaction: " ++ txRow tx9b,
        some (pyJoin '\n' ((splitlines ledgerNine).eraseIdx 11) ++ ['\n'])) ∧
    pyParts (txRow tx9b) = [tx9b.dt, lit "Expense", lit "General", lit "Book", lit "25", lit "USD"] ∧
    cleanCriteria (lit "10") = lit "10" ∧
    firstNumber (lit "10") = some (lit "10") ∧
    pyContains (lit "10") (lit "25") = false ∧
    pyContains (lit "10") tx9b.dt = true := by decide

/-- C10: habit matching in the streak scan is plain substring containment,
so three "Run 5k" successes yield streak 3 for habit "Run" even though no
row's Habit cell is "Run"; and a "Run 5k" miss on top of two "Run"
successes breaks the "Run" streak down to 0. -/
theorem C10_substring_habit_match :
    computeStreak (lit "Run") (lit "Done") trackerFiveK = 3 ∧
    (splitlines trackerFiveK).countP (fun l => (pyParts l).getD 1 [] == lit "Run") = 0 ∧
    computeStreak (lit "Run") (lit "Done") trackerTwoDone = 2 ∧
    computeStreak (lit "Run") (lit "Done") trackerRunThenFiveK = 0 := by decide

/-- C8 counterexample: logging habit "Date Night" twice on the same date
appends two data rows with the same (date, habit) key — the update scan
skips every line containing "Date", so the first row is never replaced. -/
theorem C8_duplicate_key_claim_false :
    1 < (splitlines trackerDateNight).countP
        (dataRowKeyIs (lit "2025-11-01") (lit "Date Night")) := by decide

/-- C8 amended: for `log_habit` calls whose date is made of digits and
hyphens and whose habit and status are nonempty stripped fields free of
the delimiter, newlines and the substring "Date", the tracker holds at most
one data row per (date, habit) key after any sequence of calls on a fresh
tracker; and each further such call either replaces the first row matching
its (date, habit) key in place, or appends the new row after a blank
line. -/
theorem C8_update_or_append_amended (calls : List HabitCall) (hw : ∀ c ∈ calls, wfCall c) :
    (∀ d hb, (splitlines (runHabits calls)).countP (dataRowKeyIs d hb) ≤ 1) ∧
    (∀ t h s, wfDate t → wfField h → wfField s →
      splitlines (logHabitContent t h s (runHabits calls)) =
        (match findFirstIdx (trackerRowMatch t h) (splitlines (runHabits calls)) with
          | some i => setAt (splitlines (runHabits calls)) i (newRowOf t h s (runHabits calls))
          | none =>
            splitlines (runHabits calls) ++ [[], newRowOf t h s (runHabits calls)])) := by
  have hTC := runHabits_TCInv calls hw
  constructor
  · intro d hb
    obtain ⟨L, hLc, hInv⟩ := hTC
    have hsl : splitlines (runHabits calls) = L := by
      rw [hLc]
      exact splitlines_join (inv_no_newline hInv) (inv_ne_nil hInv)
    rw [hsl]
    exact inv_dataRow_unique hInv d hb
  · intro t h s ht hh hs
    exact (logHabit_step ht hh hs hTC).2

/-- C8 witness: the amended statement evaluated on a concrete well-formed
call sequence (including a same-day update). -/
theorem C8_update_or_append_amended_witness :
    (splitlines (runHabits demoCalls)).countP
      (dataRowKeyIs (lit "2025-11-01") (lit "Run")) ≤ 1 ∧
    splitlines (logHabitContent (lit "2025-11-02") (lit "Run") (lit "Done") (runHabits demoCalls)) =
      (match findFirstIdx (trackerRowMatch (lit "2025-11-02") (lit "Run"))
          (splitlines (runHabits demoCalls)) with
        | some i => setAt (splitlines (runHabits demoCalls)) i
            (newRowOf (lit "2025-11-02") (lit "Run") (lit "Done") (runHabits demoCalls))
        | none => splitlines (runHabits demoCalls) ++
            [[], newRowOf (lit "2025-11-02") (lit "Run") (lit "Done") (runHabits demoCalls)]) :=
  ⟨(C8_update_or_append_amended demoCalls (by decide)).1 (lit "2025-11-01") (lit "Run"),
   (C8_update_or_append_amended demoCalls (by decide)).2 (lit "2025-11-02") (lit "Run")
     (lit "Done") (by decide) (by decide) (by decide)⟩

end AiAssistant
